import Mathlib

set_option autoImplicit false

namespace Flog

/-!
Shallow embedding of the content-reconciliation core of the Flog backend
(`src/backend/app/core/file_system.py`, `src/backend/app/crud/base.py`,
`src/backend/app/crud/post.py`, `src/backend/app/models/post.py`,
`src/backend/app/schemas/post.py`, `src/backend/app/core/config.py`).

Paths are modelled as lists of segments; file contents are abstracted to the
data the reconciler actually consumes (metadata, body, content hash); machine
I/O failures are abstracted to a per-file `readable` flag.
-/

/-! ### Character-level string helpers (kernel-computable replacements for
`str.split` / `str.strip` behaviour used by the embedded code) -/

/-- Split a character list at every occurrence of `c` (Python `str.split(c)`). -/
def split_ch (c : Char) : List Char → List (List Char)
  | [] => [[]]
  | a :: rest =>
    let r := split_ch c rest
    if a = c then [] :: r
    else
      match r with
      | [] => [[a]]
      | h :: t => (a :: h) :: t

/-- The lines of a string, split at newline characters. -/
def str_lines (s : String) : List String := (split_ch '\n' s.data).map String.mk

/-- Trim surrounding whitespace (Python `str.strip()`). -/
def str_trim (s : String) : String :=
  String.mk (((s.data.dropWhile Char.isWhitespace).reverse.dropWhile Char.isWhitespace).reverse)

/-- Join strings with a separator (`"sep".join(...)` / `Path.as_posix` glue). -/
def joinl (sep : String) : List String → String
  | [] => ""
  | [x] => x
  | x :: y :: rest => x ++ sep ++ joinl sep (y :: rest)

/-- Does a file name end in `.md`?  This is the `"*.md"` pattern of
`POSTS_DIR.rglob("*.md")` in `scan_posts_directory` matched against the name. -/
def ends_with_md (s : String) : Bool :=
  s.data.reverse.take 3 = ['d', 'm', '.']

/-- `pathlib.Path.stem` for names produced by the `"*.md"` glob: drops the
`.md` suffix, except that a bare `".md"` (a dot-file with no other suffix)
keeps its name. -/
def path_stem (name : String) : String :=
  if ends_with_md name ∧ 3 < name.data.length then
    String.mk (name.data.take (name.data.length - 3))
  else name

/-! ### Paths

A path is its list of segments.  `Settings.POSTS_DIR = DATA_DIR / "posts"`
(`src/backend/app/core/config.py:56-58`), so the posts root is always the
`"posts"` child of the data directory. -/

abbrev PathParts := List String

/-- `Path.as_posix()`: segments joined by forward slashes. -/
def as_posix (p : PathParts) : String := joinl "/" p

/-- `Path.relative_to(base)`: strips `base` as a prefix, `none` models the
`ValueError` raised when `base` is not a prefix. -/
def relative_to (p base : PathParts) : Option PathParts :=
  if p.take base.length = base then some (p.drop base.length) else none

/-- `get_category_from_path` (`file_system.py:59-78`): the path is made
relative to `base_dir`; a file directly in the base directory has category
`""`; otherwise the category is the FIRST component (`relative_path.parts[0]`)
of the relative path.  `none` models the exceptions of the degenerate cases
(`relative_to` failing, or `parts[0]` on an empty tuple). -/
def get_category_from_path (file_path base_dir : PathParts) : Option String :=
  match relative_to file_path base_dir with
  | none => none
  | some rel =>
    if rel.length = 1 then some ""
    else
      match rel with
      | [] => none
      | first :: _ => some first

/-! ### Data model -/

/-- `PostStatusEnum` (`src/backend/app/models/enums.py:11-15`). -/
inductive PostStatusEnum where
  | SHOW
  | HIDE
deriving DecidableEq, Repr

/-- The `posts` table row (`src/backend/app/models/post.py:15-49`).
`created_at` / `updated_at` are abstract timestamps. -/
structure Post where
  id : Nat
  slug : String
  title : String
  category : String
  file_path : String
  file_hash : String
  view_count : Nat
  status : PostStatusEnum
  created_at : Nat
  updated_at : Nat
deriving DecidableEq, Repr

/-- The persisted store: the rows of the `posts` table plus the next value of
the autoincrement primary key. -/
structure DbState where
  posts : List Post
  nextId : Nat
deriving DecidableEq, Repr

/-- `PostUpdate` (`src/backend/app/schemas/post.py:22-31`): every field is
optional; `none` models "unset", which `model_dump(exclude_unset=True)`
excludes from the update. -/
structure PostUpdate where
  title : Option String := none
  content : Option String := none
  category : Option String := none
  slug : Option String := none
  is_hidden : Option Bool := none
  file_path : Option String := none
  file_hash : Option String := none
deriving DecidableEq, Repr

/-- `PostCreate` (`src/backend/app/schemas/post.py:15-19` with `PostBase`):
`title`, `category`, `slug` are required; `file_path` / `file_hash` are
optional.  `is_hidden` is modelled as unset-able; `sync_posts_to_database`
never sets it (and `Post` has no such column). -/
structure PostCreate where
  title : String
  category : String
  slug : String
  is_hidden : Option Bool := none
  file_path : Option String := none
  file_hash : Option String := none
deriving DecidableEq, Repr

/-! ### CRUD primitives (`src/backend/app/crud/base.py`)

`create`/`update`/`delete` only `flush`; the commit is issued by the caller
(`sync_posts_to_database` commits once at the very end). -/

/-- The `setattr` loop of `CRUDBase.update` (`crud/base.py:387-393`) applied
to the fields of `model_dump(exclude_unset=True)`.  Only set fields change;
`content` and `is_hidden` are not columns of `Post`, so setting them leaves
the row unchanged; `view_count`, `status`, `created_at`, `updated_at` do not
occur in `PostUpdate` at all. -/
def apply_update_fields (p : Post) (u : PostUpdate) : Post :=
  { p with
    title := u.title.getD p.title
    category := u.category.getD p.category
    slug := u.slug.getD p.slug
    file_path := u.file_path.getD p.file_path
    file_hash := u.file_hash.getD p.file_hash }

/-- Replace the row with primary key `pid` by its updated value
(`CRUDBase.update`; the `get_or_404` lookup cannot fail in the reconciler,
every updated id was read from the table in the same transaction). -/
def update_by_id (pid : Nat) (u : PostUpdate) : List Post → List Post
  | [] => []
  | p :: rest => (if p.id = pid then apply_update_fields p u else p) :: update_by_id pid u rest

/-- Remove the row with primary key `pid` (`CRUDBase.delete`,
`crud/base.py:424-432`). -/
def delete_by_id (pid : Nat) : List Post → List Post
  | [] => []
  | p :: rest => if p.id = pid then delete_by_id pid rest else p :: delete_by_id pid rest

/-- The row built by `CRUDBase.create` (`crud/base.py:344-348`) from a
`PostCreate` whose set fields are exactly the five the reconciler passes:
column defaults of `models/post.py` give `view_count = 0`,
`status = SHOW`, `created_at = updated_at = now`.  The `.getD ""` branches
model the (never exercised by the reconciler) unset case. -/
def new_post_row (pid : Nat) (now : Nat) (c : PostCreate) : Post :=
  { id := pid
    slug := c.slug
    title := c.title
    category := c.category
    file_path := c.file_path.getD ""
    file_hash := c.file_hash.getD ""
    view_count := 0
    status := PostStatusEnum.SHOW
    created_at := now
    updated_at := now }

def crud_update (db : DbState) (pid : Nat) (u : PostUpdate) : DbState :=
  { db with posts := update_by_id pid u db.posts }

def crud_create (db : DbState) (now : Nat) (c : PostCreate) : DbState :=
  { posts := db.posts ++ [new_post_row db.nextId now c], nextId := db.nextId + 1 }

def crud_delete (db : DbState) (pid : Nat) : DbState :=
  { db with posts := delete_by_id pid db.posts }

/-! ### The directory scanner (`file_system.py:81-132`) -/

/-- One regular file under `POSTS_DIR`, as found by `rglob`:
its path segments relative to `POSTS_DIR`, the front-matter metadata and body
its text parses to, its content hash (the SHA1 hex digest is kept abstract),
and whether reading/parsing it succeeds (`readable = false` models the
per-file exceptions caught at `file_system.py:128-130`). -/
structure FsFile where
  parts : PathParts
  metadata : List (String × String)
  content : String
  file_hash : String
  readable : Bool
deriving DecidableEq, Repr

/-- The filesystem as the scanner sees it. -/
structure Filesystem where
  posts_dir_exists : Bool
  files : List FsFile
deriving DecidableEq, Repr

/-- The descriptor dict appended to `posts_info` (`file_system.py:116-127`);
the `file_path_obj` handle is omitted (never used by the reconciler). -/
structure PostInfo where
  slug : String
  title : String
  category : String
  file_path : String
  file_hash : String
  metadata : List (String × String)
  content : String
deriving DecidableEq, Repr

/-- `dict.get` on the parsed metadata mapping. -/
def lookup_meta (k : String) : List (String × String) → Option String
  | [] => none
  | kv :: rest => if kv.1 = k then some kv.2 else lookup_meta k rest

/-- Does the `"*.md"` pattern match this file (pattern is checked against the
file name)? -/
def md_glob_matches (parts : PathParts) : Bool :=
  match parts.getLast? with
  | some name => ends_with_md name
  | none => false

/-- The body of the per-file `try` block (`file_system.py:96-127`): hash,
metadata, category relative to `POSTS_DIR`, path relative to `DATA_DIR`,
slug from the stem, title from metadata with slug fallback.  `none` models
any exception, which skips the file. -/
def process_file (data_dir : PathParts) (f : FsFile) : Option PostInfo :=
  if f.readable then
    match get_category_from_path (data_dir ++ "posts" :: f.parts) (data_dir ++ ["posts"]) with
    | none => none
    | some category =>
      match relative_to (data_dir ++ "posts" :: f.parts) data_dir with
      | none => none
      | some rel =>
        let slug := path_stem ((f.parts.getLast?).getD "")
        some
          { slug := slug
            title := (lookup_meta "title" f.metadata).getD slug
            category := category
            file_path := as_posix rel
            file_hash := f.file_hash
            metadata := f.metadata
            content := f.content }
  else none

/-- `scan_posts_directory` (`file_system.py:81-132`): empty when the posts
root is missing; otherwise one descriptor per readable `*.md` file, bad files
skipped. -/
def scan_posts_directory (data_dir : PathParts) (fs : Filesystem) : List PostInfo :=
  if fs.posts_dir_exists then
    fs.files.filterMap fun f =>
      if md_glob_matches f.parts then process_file data_dir f else none
  else []

/-! ### The reconciler (`sync_posts_to_database`, `file_system.py:135-205`) -/

/-- The summary dict `stats`. -/
structure SyncStats where
  added : Nat
  updated : Nat
  deleted : Nat
deriving DecidableEq, Repr

/-- Python `dict` membership on the working mapping. -/
def dict_has (k : String) : List (String × Post) → Bool
  | [] => false
  | kv :: rest => if kv.1 = k then true else dict_has k rest

/-- Python `dict` lookup on the working mapping. -/
def dict_get (k : String) : List (String × Post) → Option Post
  | [] => none
  | kv :: rest => if kv.1 = k then some kv.2 else dict_get k rest

/-- Python `dict` item assignment: replace in place, or append. -/
def dict_set (k : String) (v : Post) : List (String × Post) → List (String × Post)
  | [] => [(k, v)]
  | kv :: rest => if kv.1 = k then (k, v) :: rest else kv :: dict_set k v rest

/-- Python `del d[k]`. -/
def dict_erase (k : String) : List (String × Post) → List (String × Post)
  | [] => []
  | kv :: rest => if kv.1 = k then dict_erase k rest else kv :: dict_erase k rest

/-- `db_posts_by_path = {post.file_path: post for post in db_posts}`
(`file_system.py:150`): the dict comprehension in row order. -/
def posts_by_path_from (m : List (String × Post)) : List Post → List (String × Post)
  | [] => m
  | p :: rest => posts_by_path_from (dict_set p.file_path p m) rest

def posts_by_path (posts : List Post) : List (String × Post) :=
  posts_by_path_from [] posts

/-- The `PostUpdate` constructed at `file_system.py:169-173`. -/
def post_update_of (info : PostInfo) : PostUpdate :=
  { title := some info.title
    category := some info.category
    file_hash := some info.file_hash }

/-- The `PostCreate` constructed at `file_system.py:184-190`. -/
def post_create_of (info : PostInfo) : PostCreate :=
  { slug := info.slug
    title := info.title
    category := info.category
    file_path := some info.file_path
    file_hash := some info.file_hash }

structure SyncState where
  db : DbState
  work : List (String × Post)
  stats : SyncStats
deriving Repr

/-- One iteration of the `for post_info in posts_info` loop
(`file_system.py:160-195`). -/
def sync_step (now : Nat) (s : SyncState) (info : PostInfo) : SyncState :=
  match dict_get info.file_path s.work with
  | some db_post =>
    if db_post.file_hash ≠ info.file_hash then
      { db := crud_update s.db db_post.id (post_update_of info)
        work := dict_erase info.file_path s.work
        stats := { s.stats with updated := s.stats.updated + 1 } }
    else
      { s with work := dict_erase info.file_path s.work }
  | none =>
    { db := crud_create s.db now (post_create_of info)
      work := s.work
      stats := { s.stats with added := s.stats.added + 1 } }

def sync_loop (now : Nat) : List PostInfo → SyncState → SyncState
  | [], s => s
  | info :: rest, s => sync_loop now rest (sync_step now s info)

/-- The `for db_post in db_posts_by_path.values()` delete loop
(`file_system.py:198-200`). -/
def delete_loop : List (String × Post) → DbState × SyncStats → DbState × SyncStats
  | [], acc => acc
  | kv :: rest, acc =>
    delete_loop rest
      (crud_delete acc.1 kv.2.id, ⟨acc.2.added, acc.2.updated, acc.2.deleted + 1⟩)

/-- `sync_posts_to_database` after `posts_info` has been scanned: diff the
descriptors against the table and apply creates/updates/deletes
(`file_system.py:146-205`). -/
def sync_core (now : Nat) (posts_info : List PostInfo) (db : DbState) :
    DbState × SyncStats :=
  let s0 : SyncState := ⟨db, posts_by_path db.posts, ⟨0, 0, 0⟩⟩
  let s1 := sync_loop now posts_info s0
  delete_loop s1.work (s1.db, s1.stats)

/-- `sync_posts_to_database` (`file_system.py:135-205`): scan, then reconcile. -/
def sync_posts_to_database (now : Nat) (data_dir : PathParts) (fs : Filesystem)
    (db : DbState) : DbState × SyncStats :=
  sync_core now (scan_posts_directory data_dir fs) db

/-! ### Front matter -/

/-- Split a key/value line on the first colon; `none` when the line has no
colon (such lines are ignored). -/
def break_colon : List Char → Option (List Char × List Char)
  | [] => none
  | c :: rest =>
    if c = ':' then some ([], rest)
    else (break_colon rest).map fun pr => (c :: pr.1, pr.2)

/-- `key: value` with the value trimmed of surrounding whitespace and the key
kept as written. -/
def parse_kv (line : String) : Option (String × String) :=
  (break_colon line.data).map fun pr => (String.mk pr.1, str_trim (String.mk pr.2))

/-- Split a line list at the first occurrence of the delimiter line; `none`
when the delimiter never occurs. -/
def split_at_delim (delim : String) : List String → Option (List String × List String)
  | [] => none
  | l :: rest =>
    if l = delim then some ([], rest)
    else (split_at_delim delim rest).map fun pr => (l :: pr.1, pr.2)

/-- Modelled from the spec: the front-matter extraction inside
`get_markdown_content_and_metadata` (`file_system.py:14-38`) is performed by
the third-party `frontmatter` library, whose code is not part of `src/`; this
definition follows the contract of spec §4.1 word for word.  A metadata block
is recognized only if the document begins with the three-character delimiter
line and that delimiter line occurs again later; the lines between the two
delimiters parse as `key: value` (split on the first colon, colon-free lines
ignored, values trimmed, keys as written); the body is everything after the
closing delimiter rejoined with newlines.  A document with no opening
delimiter at position zero, or with no closing delimiter, is all body with
empty metadata — not an error. -/
def parse_front_matter (doc : String) : List (String × String) × String :=
  match str_lines doc with
  | [] => ([], doc)
  | first :: rest =>
    if first = "---" then
      match split_at_delim "---" rest with
      | some pr => (pr.1.filterMap parse_kv, joinl "\n" pr.2)
      | none => ([], doc)
    else ([], doc)

/-! ### The transaction boundary

Modelled from the spec: the transactional behaviour of the SQLAlchemy
`AsyncSession` (third-party, not part of `src/`).  `get_session`
(`src/backend/app/deps.py:17-27`) wraps each request in `session.begin()`,
which rolls the transaction back when an exception escapes; the CRUD
primitives only `flush` (pending state), and `sync_posts_to_database` issues
the single `session.commit()` at `file_system.py:203` after the whole plan.
A session is therefore a committed store plus the pending in-transaction
store; an injected write failure (`fail_at` = index of the failing write
statement) aborts the run before the commit. -/

structure Session where
  committed : DbState
  pending : DbState
deriving DecidableEq, Repr

structure TxState where
  pending : DbState
  work : List (String × Post)
  stats : SyncStats
  writes : Nat
deriving Repr

def fail_hits (fail_at : Option Nat) (n : Nat) : Bool :=
  decide (fail_at = some n)

/-- One iteration of the reconcile loop inside the transaction; each issued
write statement (update or insert) may be the failing one. -/
def tx_step (now : Nat) (fail_at : Option Nat) (s : TxState) (info : PostInfo) :
    Except Unit TxState :=
  match dict_get info.file_path s.work with
  | some db_post =>
    if db_post.file_hash ≠ info.file_hash then
      if fail_hits fail_at s.writes then Except.error ()
      else Except.ok
        ⟨crud_update s.pending db_post.id (post_update_of info),
         dict_erase info.file_path s.work,
         ⟨s.stats.added, s.stats.updated + 1, s.stats.deleted⟩,
         s.writes + 1⟩
    else Except.ok ⟨s.pending, dict_erase info.file_path s.work, s.stats, s.writes⟩
  | none =>
    if fail_hits fail_at s.writes then Except.error ()
    else Except.ok
      ⟨crud_create s.pending now (post_create_of info),
       s.work,
       ⟨s.stats.added + 1, s.stats.updated, s.stats.deleted⟩,
       s.writes + 1⟩

def tx_loop (now : Nat) (fail_at : Option Nat) :
    List PostInfo → TxState → Except Unit TxState
  | [], s => Except.ok s
  | info :: rest, s =>
    match tx_step now fail_at s info with
    | Except.ok s' => tx_loop now fail_at rest s'
    | Except.error e => Except.error e

def tx_delete_loop (fail_at : Option Nat) :
    List (String × Post) → TxState → Except Unit TxState
  | [], s => Except.ok s
  | kv :: rest, s =>
    if fail_hits fail_at s.writes then Except.error ()
    else tx_delete_loop fail_at rest
      ⟨crud_delete s.pending kv.2.id,
       s.work,
       ⟨s.stats.added, s.stats.updated, s.stats.deleted + 1⟩,
       s.writes + 1⟩

/-- `sync_posts_to_database` run against a session: all writes touch the
pending store; on success the single final commit publishes it, on a failure
the exception escapes before the commit and the rollback of `session.begin()`
leaves the committed store as it was; the caller then sees the error, not a
summary. -/
def sync_posts_to_database_tx (now : Nat) (fail_at : Option Nat)
    (posts_info : List PostInfo) (sess : Session) : Session × Except Unit SyncStats :=
  let s0 : TxState := ⟨sess.pending, posts_by_path sess.pending.posts, ⟨0, 0, 0⟩, 0⟩
  match tx_loop now fail_at posts_info s0 with
  | Except.error e => (⟨sess.committed, sess.committed⟩, Except.error e)
  | Except.ok s1 =>
    match tx_delete_loop fail_at s1.work s1 with
    | Except.error e => (⟨sess.committed, sess.committed⟩, Except.error e)
    | Except.ok s2 => (⟨s2.pending, s2.pending⟩, Except.ok s2.stats)

/-! ### Well-formedness of the persisted index

`file_path` is the stable identity key (one row per file) and `id` is the
primary key; every id already allocated is below the autoincrement cursor. -/

def DbOk (db : DbState) : Prop :=
  (db.posts.map Post.file_path).Nodup ∧
  (db.posts.map Post.id).Nodup ∧
  ∀ p ∈ db.posts, p.id < db.nextId

instance (db : DbState) : Decidable (DbOk db) := by
  unfold DbOk; infer_instance

/-! ### Derived specification functions

Closed forms of what one run of the reconciler does, used to state and prove
its characterization. -/

/-- Did the loop classify `i` as an update against working map `m`:
its path has a row and the hash differs. -/
def is_changed (m : List (String × Post)) (i : PostInfo) : Bool :=
  match dict_get i.file_path m with
  | some q => decide (q.file_hash ≠ i.file_hash)
  | none => false

/-- A working-map entry survives the matching loop iff no scanned descriptor
carries its path. -/
def survives (scanned : List PostInfo) (kv : String × Post) : Bool :=
  scanned.all fun i => decide (¬ i.file_path = kv.1)

/-- A row survives the delete sweep iff no swept entry carries its id. -/
def not_deleted (ws : List (String × Post)) (p : Post) : Bool :=
  ws.all fun kv => decide (¬ p.id = kv.2.id)

/-- Does descriptor `i` target row id `p.id` for an update through working
map `m`? -/
def upd_pred (m : List (String × Post)) (p : Post) (i : PostInfo) : Bool :=
  match dict_get i.file_path m with
  | some q => decide (q.id = p.id ∧ q.file_hash ≠ i.file_hash)
  | none => false

/-- The cumulative effect of the loop's updates on one row: the first scanned
descriptor whose matched working-map row has this row's id and a differing
hash rewrites title/category/hash. -/
def upd_fun (scanned : List PostInfo) (m : List (String × Post)) (p : Post) : Post :=
  match scanned.find? (upd_pred m p) with
  | some i => apply_update_fields p (post_update_of i)
  | none => p

/-- The rows created for the fresh descriptors, ids allocated consecutively. -/
def mk_creates (now : Nat) : Nat → List PostInfo → List Post
  | _, [] => []
  | nid, i :: rest => new_post_row nid now (post_create_of i) :: mk_creates now (nid + 1) rest

/-- The spec's reading of the category rule (§4.3: "the full relative
directory chain becomes the category string"), for comparison against
`get_category_from_path`. -/
def get_category_from_path_spec (file_path base_dir : PathParts) : Option String :=
  (relative_to file_path base_dir).map fun rel => as_posix rel.dropLast

/-- The spec's reading of the identity key (§3: "POSIX-style path relative to
the content root"), for comparison against the `file_path` the scanner
actually computes. -/
def file_path_spec_of (f : FsFile) : String := as_posix f.parts

/-- The descriptor `process_file` builds for a file whose processing
succeeds (total form, for stating the scanner characterization). -/
def scanned_info (data_dir : PathParts) (f : FsFile) : PostInfo :=
  { slug := path_stem ((f.parts.getLast?).getD "")
    title := (lookup_meta "title" f.metadata).getD (path_stem ((f.parts.getLast?).getD ""))
    category := (get_category_from_path (data_dir ++ "posts" :: f.parts)
      (data_dir ++ ["posts"])).getD ""
    file_path := as_posix ("posts" :: f.parts)
    file_hash := f.file_hash
    metadata := f.metadata
    content := f.content }

/-! ## Lemmas about the working dictionary -/

theorem dict_get_none_iff (k : String) (m : List (String × Post)) :
    dict_get k m = none ↔ dict_has k m = false := by
  induction m with
  | nil => simp [dict_get, dict_has]
  | cons kv rest ih => by_cases h : kv.1 = k <;> simp [dict_get, dict_has, h, ih]

theorem dict_get_some_mem {k : String} {m : List (String × Post)} {q : Post}
    (h : dict_get k m = some q) : (k, q) ∈ m := by
  induction m with
  | nil => simp [dict_get] at h
  | cons kv rest ih =>
    by_cases hk : kv.1 = k
    · rw [dict_get, if_pos hk] at h
      obtain ⟨k₁, v₁⟩ := kv
      obtain rfl : v₁ = q := by simpa using h
      obtain rfl : k₁ = k := hk
      exact List.mem_cons_self _ _
    · rw [dict_get, if_neg hk] at h
      exact List.mem_cons_of_mem _ (ih h)

theorem dict_get_some_has {k : String} {m : List (String × Post)} {q : Post}
    (h : dict_get k m = some q) : dict_has k m = true := by
  cases hh : dict_has k m
  · rw [← dict_get_none_iff] at hh; rw [h] at hh; cases hh
  · rfl

theorem dict_has_false_forall : ∀ {m : List (String × Post)} {k : String},
    dict_has k m = false → ∀ kv ∈ m, kv.1 ≠ k
  | [], _, _, _, hkv => by cases hkv
  | kv₀ :: rest, k, h, kv, hkv => by
    by_cases hk : kv₀.1 = k
    · rw [dict_has, if_pos hk] at h; cases h
    · rw [dict_has, if_neg hk] at h
      rcases List.mem_cons.mp hkv with rfl | hkv'
      · exact hk
      · exact dict_has_false_forall h kv hkv'

theorem dict_erase_sublist (k : String) (m : List (String × Post)) :
    List.Sublist (dict_erase k m) m := by
  induction m with
  | nil => simp [dict_erase]
  | cons kv rest ih =>
    by_cases h : kv.1 = k
    · rw [dict_erase, if_pos h]; exact ih.cons _
    · rw [dict_erase, if_neg h]; exact ih.cons₂ _

theorem mem_dict_erase : ∀ {m : List (String × Post)} {k : String} {kv : String × Post},
    kv ∈ dict_erase k m → kv ∈ m ∧ kv.1 ≠ k
  | [], _, _, h => by simp [dict_erase] at h
  | kv₀ :: rest, k, kv, h => by
    by_cases hk : kv₀.1 = k
    · rw [dict_erase, if_pos hk] at h
      exact ⟨List.mem_cons_of_mem _ (mem_dict_erase h).1, (mem_dict_erase h).2⟩
    · rw [dict_erase, if_neg hk] at h
      rcases List.mem_cons.mp h with rfl | h'
      · exact ⟨List.mem_cons_self _ _, hk⟩
      · exact ⟨List.mem_cons_of_mem _ (mem_dict_erase h').1, (mem_dict_erase h').2⟩

theorem dict_get_erase_ne {k k' : String} (m : List (String × Post)) (h : k' ≠ k) :
    dict_get k' (dict_erase k m) = dict_get k' m := by
  induction m with
  | nil => simp [dict_erase]
  | cons kv rest ih =>
    by_cases hk : kv.1 = k
    · rw [dict_erase, if_pos hk, ih, dict_get, if_neg (by rw [hk]; exact fun hc => h hc.symm)]
    · rw [dict_erase, if_neg hk, dict_get, dict_get]
      by_cases hk' : kv.1 = k' <;> simp [hk', ih]

theorem dict_has_erase_ne {k k' : String} (m : List (String × Post)) (h : k' ≠ k) :
    dict_has k' (dict_erase k m) = dict_has k' m := by
  cases hg : dict_get k' m with
  | none =>
    have h₁ := (dict_get_none_iff k' m).mp hg
    have h₂ : dict_get k' (dict_erase k m) = none := by rw [dict_get_erase_ne m h]; exact hg
    rw [h₁, (dict_get_none_iff _ _).mp h₂]
  | some q =>
    have h₂ : dict_get k' (dict_erase k m) = some q := by rw [dict_get_erase_ne m h]; exact hg
    rw [dict_get_some_has hg, dict_get_some_has h₂]

theorem dict_erase_eq_filter (k : String) (m : List (String × Post)) :
    dict_erase k m = m.filter fun kv => decide (¬ kv.1 = k) := by
  induction m with
  | nil => simp [dict_erase]
  | cons kv rest ih =>
    by_cases h : kv.1 = k <;> simp [dict_erase, h, ih, List.filter_cons]

theorem dict_set_not_has {k : String} {v : Post} {m : List (String × Post)}
    (h : dict_has k m = false) : dict_set k v m = m ++ [(k, v)] := by
  induction m with
  | nil => simp [dict_set]
  | cons kv rest ih =>
    by_cases hk : kv.1 = k
    · rw [dict_has, if_pos hk] at h; cases h
    · rw [dict_has, if_neg hk] at h
      rw [dict_set, if_neg hk, ih h, List.cons_append]

theorem dict_has_append (k : String) (m₁ m₂ : List (String × Post)) :
    dict_has k (m₁ ++ m₂) = (dict_has k m₁ || dict_has k m₂) := by
  induction m₁ with
  | nil => simp [dict_has]
  | cons kv rest ih =>
    by_cases h : kv.1 = k <;> simp [dict_has, h, ih]

theorem posts_by_path_from_eq :
    ∀ (posts : List Post) (m : List (String × Post)),
    (posts.map Post.file_path).Nodup →
    (∀ p ∈ posts, dict_has p.file_path m = false) →
    posts_by_path_from m posts = m ++ posts.map fun p => (p.file_path, p)
  | [], m, _, _ => by simp [posts_by_path_from]
  | p :: rest, m, hnd, hfree => by
    have hnd' := hnd
    rw [List.map_cons, List.nodup_cons] at hnd'
    have hfree' : ∀ q ∈ rest, dict_has q.file_path (m ++ [(p.file_path, p)]) = false := by
      intro q hq
      have h₁ : dict_has q.file_path m = false := hfree q (List.mem_cons_of_mem _ hq)
      have hne : p.file_path ≠ q.file_path :=
        fun hc => hnd'.1 (hc ▸ List.mem_map_of_mem Post.file_path hq)
      have h₂ : dict_has q.file_path [(p.file_path, p)] = false := by
        simp [dict_has, hne]
      rw [dict_has_append, h₁, h₂]; rfl
    rw [posts_by_path_from, dict_set_not_has (hfree p (List.mem_cons_self _ _)),
      posts_by_path_from_eq rest (m ++ [(p.file_path, p)]) hnd'.2 hfree']
    simp

theorem posts_by_path_eq {posts : List Post} (h : (posts.map Post.file_path).Nodup) :
    posts_by_path posts = posts.map fun p => (p.file_path, p) := by
  rw [posts_by_path, posts_by_path_from_eq posts [] h (by intro p _; rfl)]
  simp

theorem dict_get_pairing (k : String) (posts : List Post) :
    dict_get k (posts.map fun p => (p.file_path, p))
      = posts.find? fun p => decide (p.file_path = k) := by
  induction posts with
  | nil => simp [dict_get]
  | cons p rest ih =>
    by_cases h : p.file_path = k
    · rw [List.map_cons, dict_get, if_pos h, List.find?_cons_of_pos _ (by simpa using h)]
    · rw [List.map_cons, dict_get, if_neg h, List.find?_cons_of_neg _ (by simpa using h), ih]

theorem dict_has_pairing (k : String) (posts : List Post) :
    dict_has k (posts.map fun p => (p.file_path, p))
      = posts.any fun p => decide (p.file_path = k) := by
  induction posts with
  | nil => simp [dict_has]
  | cons p rest ih =>
    by_cases h : p.file_path = k
    · rw [List.map_cons, dict_has, if_pos h]; simp [h]
    · rw [List.map_cons, dict_has, if_neg h]; simp [h, ih]

/-! ## Lemmas about the CRUD primitives -/

theorem apply_update_fields_id (p : Post) (u : PostUpdate) :
    (apply_update_fields p u).id = p.id := rfl

theorem apply_update_fields_view_count (p : Post) (u : PostUpdate) :
    (apply_update_fields p u).view_count = p.view_count := rfl

theorem apply_update_fields_status (p : Post) (u : PostUpdate) :
    (apply_update_fields p u).status = p.status := rfl

theorem apply_update_fields_created_at (p : Post) (u : PostUpdate) :
    (apply_update_fields p u).created_at = p.created_at := rfl

theorem apply_update_fields_updated_at (p : Post) (u : PostUpdate) :
    (apply_update_fields p u).updated_at = p.updated_at := rfl

theorem update_by_id_eq_map (pid : Nat) (u : PostUpdate) (l : List Post) :
    update_by_id pid u l = l.map fun p => if p.id = pid then apply_update_fields p u else p := by
  induction l with
  | nil => rfl
  | cons p rest ih => rw [update_by_id, ih]; rfl

theorem delete_by_id_eq_filter (pid : Nat) (l : List Post) :
    delete_by_id pid l = l.filter fun p => decide (¬ p.id = pid) := by
  induction l with
  | nil => rfl
  | cons p rest ih =>
    by_cases h : p.id = pid <;> simp [delete_by_id, h, ih, List.filter_cons]

/-! ## Congruence helpers -/

theorem find_eq_of_congr {α : Type} {p q : α → Bool} :
    ∀ (l : List α), (∀ a ∈ l, p a = q a) → l.find? p = l.find? q
  | [], _ => rfl
  | a :: l, h => by
    have ha := h a (List.mem_cons_self _ _)
    by_cases hp : p a = true
    · rw [List.find?_cons_of_pos _ hp, List.find?_cons_of_pos _ (ha ▸ hp)]
    · rw [List.find?_cons_of_neg _ hp, List.find?_cons_of_neg _ (by rw [← ha]; exact hp),
        find_eq_of_congr l fun b hb => h b (List.mem_cons_of_mem _ hb)]

theorem countP_eq_of_congr {α : Type} {p q : α → Bool} :
    ∀ (l : List α), (∀ a ∈ l, p a = q a) → l.countP p = l.countP q
  | [], _ => rfl
  | a :: l, h => by
    rw [List.countP_cons, List.countP_cons, h a (List.mem_cons_self _ _),
      countP_eq_of_congr l fun b hb => h b (List.mem_cons_of_mem _ hb)]

/-! ## Pointwise behaviour of `upd_fun` across one loop step -/

theorem is_changed_erase_ne {i j : PostInfo} (m : List (String × Post))
    (hne : j.file_path ≠ i.file_path) :
    is_changed (dict_erase i.file_path m) j = is_changed m j := by
  rw [is_changed, is_changed, dict_get_erase_ne m hne]

theorem upd_pred_erase_ne {i j : PostInfo} (m : List (String × Post)) (p : Post)
    (hne : j.file_path ≠ i.file_path) :
    upd_pred (dict_erase i.file_path m) p j = upd_pred m p j := by
  rw [upd_pred, upd_pred, dict_get_erase_ne m hne]

theorem upd_fun_fresh {scanned : List PostInfo} {m : List (String × Post)} {p : Post}
    (hfresh : ∀ kv ∈ m, kv.2.id ≠ p.id) :
    upd_fun scanned m p = p := by
  have hnone : scanned.find? (upd_pred m p) = none := by
    rw [List.find?_eq_none]
    intro j _
    rw [upd_pred]
    cases hg : dict_get j.file_path m with
    | none => simp
    | some q =>
      have : q.id ≠ p.id := hfresh _ (dict_get_some_mem hg)
      simp [this]
  rw [upd_fun, hnone]

theorem upd_fun_step_changed {i : PostInfo} {rest : List PostInfo}
    {m : List (String × Post)} {q : Post}
    (hg : dict_get i.file_path m = some q)
    (hh : q.file_hash ≠ i.file_hash)
    (h4 : (m.map fun kv => kv.2.id).Nodup)
    (hiN : ∀ j ∈ rest, j.file_path ≠ i.file_path)
    (p : Post) :
    upd_fun rest (dict_erase i.file_path m)
        (if p.id = q.id then apply_update_fields p (post_update_of i) else p)
      = upd_fun (i :: rest) m p := by
  have hmemq : (i.file_path, q) ∈ m := dict_get_some_mem hg
  by_cases hid : p.id = q.id
  · rw [if_pos hid]
    have hpred : upd_pred m p i = true := by
      rw [upd_pred, hg]
      exact decide_eq_true ⟨hid.symm, hh⟩
    have hrhs : upd_fun (i :: rest) m p = apply_update_fields p (post_update_of i) := by
      rw [upd_fun, List.find?_cons_of_pos _ hpred]
    rw [hrhs]
    refine upd_fun_fresh ?_
    intro kv hkv hcid
    have hm := mem_dict_erase hkv
    have hkvq : kv = (i.file_path, q) :=
      List.inj_on_of_nodup_map h4 hm.1 hmemq
        (by rw [hcid, apply_update_fields_id, hid])
    exact hm.2 (by rw [hkvq])
  · rw [if_neg hid]
    have hpred : ¬ upd_pred m p i = true := by
      rw [upd_pred, hg]
      simp only [decide_eq_true_eq, not_and]
      intro hq
      exact absurd hq.symm hid
    rw [upd_fun, upd_fun, List.find?_cons_of_neg _ hpred,
      find_eq_of_congr rest fun j hj => upd_pred_erase_ne m p (hiN j hj)]

theorem upd_fun_step_unchanged {i : PostInfo} {rest : List PostInfo}
    {m : List (String × Post)} {q : Post}
    (hg : dict_get i.file_path m = some q)
    (hh : ¬ q.file_hash ≠ i.file_hash)
    (hiN : ∀ j ∈ rest, j.file_path ≠ i.file_path)
    (p : Post) :
    upd_fun rest (dict_erase i.file_path m) p = upd_fun (i :: rest) m p := by
  have hpred : ¬ upd_pred m p i = true := by
    rw [upd_pred, hg]
    simp only [decide_eq_true_eq, not_and]
    exact fun _ => hh
  rw [upd_fun, upd_fun, List.find?_cons_of_neg _ hpred,
    find_eq_of_congr rest fun j hj => upd_pred_erase_ne m p (hiN j hj)]

theorem upd_fun_step_create {i : PostInfo} {rest : List PostInfo}
    {m : List (String × Post)}
    (hg : dict_get i.file_path m = none)
    (p : Post) :
    upd_fun rest m p = upd_fun (i :: rest) m p := by
  have hpred : ¬ upd_pred m p i = true := by
    rw [upd_pred, hg]
    simp
  rw [upd_fun, upd_fun, List.find?_cons_of_neg _ hpred]

/-! ## Case equations for one loop iteration -/

theorem sync_step_changed {now : Nat} {s : SyncState} {info : PostInfo} {q : Post}
    (hg : dict_get info.file_path s.work = some q)
    (hh : q.file_hash ≠ info.file_hash) :
    sync_step now s info =
      ⟨crud_update s.db q.id (post_update_of info),
       dict_erase info.file_path s.work,
       ⟨s.stats.added, s.stats.updated + 1, s.stats.deleted⟩⟩ := by
  simp only [sync_step, hg]
  rw [if_pos hh]

theorem sync_step_unchanged {now : Nat} {s : SyncState} {info : PostInfo} {q : Post}
    (hg : dict_get info.file_path s.work = some q)
    (hh : ¬ q.file_hash ≠ info.file_hash) :
    sync_step now s info = ⟨s.db, dict_erase info.file_path s.work, s.stats⟩ := by
  simp only [sync_step, hg]
  rw [if_neg hh]

theorem sync_step_create {now : Nat} {s : SyncState} {info : PostInfo}
    (hg : dict_get info.file_path s.work = none) :
    sync_step now s info =
      ⟨crud_create s.db now (post_create_of info),
       s.work,
       ⟨s.stats.added + 1, s.stats.updated, s.stats.deleted⟩⟩ := by
  simp only [sync_step, hg]

/-! ## The loop characterization -/

theorem sync_loop_spec (now : Nat) :
    ∀ (scanned : List PostInfo) (s : SyncState),
    (scanned.map PostInfo.file_path).Nodup →
    (∀ kv ∈ s.work, kv.2.file_path = kv.1) →
    (s.work.map Prod.fst).Nodup →
    (∀ kv ∈ s.work, kv.2 ∈ s.db.posts) →
    ((s.work.map fun kv => kv.2.id).Nodup) →
    (∀ kv ∈ s.work, kv.2.id < s.db.nextId) →
    (∀ p ∈ s.db.posts, p.id < s.db.nextId) →
    (sync_loop now scanned s).stats.added
        = s.stats.added + scanned.countP (fun j => !(dict_has j.file_path s.work)) ∧
    (sync_loop now scanned s).stats.updated
        = s.stats.updated + scanned.countP (is_changed s.work) ∧
    (sync_loop now scanned s).stats.deleted = s.stats.deleted ∧
    (sync_loop now scanned s).work = s.work.filter (survives scanned) ∧
    (sync_loop now scanned s).db.posts
        = s.db.posts.map (upd_fun scanned s.work)
          ++ mk_creates now s.db.nextId
              (scanned.filter fun j => !(dict_has j.file_path s.work)) ∧
    (sync_loop now scanned s).db.nextId
        = s.db.nextId + scanned.countP fun j => !(dict_has j.file_path s.work)
  | [], s, _, _, _, _, _, _, _ => by
    refine ⟨by simp [sync_loop], by simp [sync_loop], rfl, ?_, ?_, by simp [sync_loop]⟩
    · rw [sync_loop]
      have : ∀ kv ∈ s.work, survives [] kv = true := fun kv _ => rfl
      rw [List.filter_congr this, List.filter_true]
    · rw [sync_loop]
      have : ∀ p ∈ s.db.posts, upd_fun [] s.work p = p := fun p _ => rfl
      rw [List.map_congr_left this, List.map_id']
      simp [mk_creates]
  | i :: rest, s, hS, h1, h2, h3, h4, h5, h6 => by
    have hSc := hS
    rw [List.map_cons, List.nodup_cons] at hSc
    have hiN : ∀ j ∈ rest, j.file_path ≠ i.file_path :=
      fun j hj hc => hSc.1 (hc ▸ List.mem_map_of_mem PostInfo.file_path hj)
    have hS' := hSc.2
    rw [sync_loop]
    cases hg : dict_get i.file_path s.work with
    | some q =>
      have hmemq : (i.file_path, q) ∈ s.work := dict_get_some_mem hg
      have hhas : dict_has i.file_path s.work = true := dict_get_some_has hg
      have hcHas : rest.countP (fun j => !(dict_has j.file_path (dict_erase i.file_path s.work)))
          = rest.countP (fun j => !(dict_has j.file_path s.work)) :=
        countP_eq_of_congr rest fun j hj => by rw [dict_has_erase_ne _ (hiN j hj)]
      have hfHas : rest.filter (fun j => !(dict_has j.file_path (dict_erase i.file_path s.work)))
          = rest.filter (fun j => !(dict_has j.file_path s.work)) :=
        List.filter_congr fun j hj => by rw [dict_has_erase_ne _ (hiN j hj)]
      have hcCh : rest.countP (is_changed (dict_erase i.file_path s.work))
          = rest.countP (is_changed s.work) :=
        countP_eq_of_congr rest fun j hj => is_changed_erase_ne _ (hiN j hj)
      have hw : (dict_erase i.file_path s.work).filter (survives rest)
          = s.work.filter (survives (i :: rest)) := by
        rw [dict_erase_eq_filter, List.filter_filter]
        refine List.filter_congr ?_
        intro kv _
        show (survives rest kv && decide (¬ kv.1 = i.file_path)) = survives (i :: rest) kv
        simp only [survives, List.all_cons]
        rw [Bool.and_comm]
        congr 1
        exact decide_eq_decide.mpr (not_congr eq_comm)
      have h1' : ∀ kv ∈ dict_erase i.file_path s.work, kv.2.file_path = kv.1 :=
        fun kv hkv => h1 kv (mem_dict_erase hkv).1
      have h2' : ((dict_erase i.file_path s.work).map Prod.fst).Nodup :=
        List.Nodup.sublist ((dict_erase_sublist _ _).map _) h2
      have h4' : ((dict_erase i.file_path s.work).map fun kv => kv.2.id).Nodup :=
        List.Nodup.sublist ((dict_erase_sublist _ _).map _) h4
      by_cases hh : q.file_hash ≠ i.file_hash
      · rw [sync_step_changed hg hh]
        have hidne : ∀ kv ∈ dict_erase i.file_path s.work, kv.2.id ≠ q.id := by
          intro kv hkv hcid
          have hm := mem_dict_erase hkv
          have hkvq : kv = (i.file_path, q) :=
            List.inj_on_of_nodup_map h4 hm.1 hmemq hcid
          exact hm.2 (by rw [hkvq])
        have h3' : ∀ kv ∈ dict_erase i.file_path s.work,
            kv.2 ∈ (crud_update s.db q.id (post_update_of i)).posts := by
          intro kv hkv
          have hmm : kv.2 ∈ s.db.posts := h3 kv (mem_dict_erase hkv).1
          show kv.2 ∈ update_by_id q.id (post_update_of i) s.db.posts
          rw [update_by_id_eq_map]
          have hmem : (if kv.2.id = q.id then apply_update_fields kv.2 (post_update_of i) else kv.2)
              ∈ s.db.posts.map
                (fun p => if p.id = q.id then apply_update_fields p (post_update_of i) else p) :=
            List.mem_map_of_mem _ hmm
          rwa [if_neg (hidne kv hkv)] at hmem
        have h5' : ∀ kv ∈ dict_erase i.file_path s.work,
            kv.2.id < (crud_update s.db q.id (post_update_of i)).nextId :=
          fun kv hkv => h5 kv (mem_dict_erase hkv).1
        have h6' : ∀ p ∈ (crud_update s.db q.id (post_update_of i)).posts,
            p.id < (crud_update s.db q.id (post_update_of i)).nextId := by
          intro p hp
          show p.id < s.db.nextId
          rw [show (crud_update s.db q.id (post_update_of i)).posts
              = update_by_id q.id (post_update_of i) s.db.posts from rfl,
            update_by_id_eq_map] at hp
          obtain ⟨p₀, hp₀, rfl⟩ := List.mem_map.mp hp
          by_cases hc : p₀.id = q.id
          · rw [if_pos hc, apply_update_fields_id]
            exact h6 p₀ hp₀
          · rw [if_neg hc]
            exact h6 p₀ hp₀
        obtain ⟨ga, gu, gd, gw, gp, gn⟩ :=
          sync_loop_spec now rest
            ⟨crud_update s.db q.id (post_update_of i),
             dict_erase i.file_path s.work,
             ⟨s.stats.added, s.stats.updated + 1, s.stats.deleted⟩⟩
            hS' h1' h2' h3' h4' h5' h6'
        refine ⟨?_, ?_, ?_, ?_, ?_, ?_⟩
        · rw [ga]
          dsimp only
          rw [hcHas, List.countP_cons, hhas]
          simp
        · rw [gu]
          dsimp only
          have hci : is_changed s.work i = true := by
            rw [is_changed, hg]
            exact decide_eq_true hh
          rw [hcCh, List.countP_cons, hci]
          simp
          omega
        · rw [gd]
        · rw [gw]
          exact hw
        · rw [gp]
          dsimp only [crud_update]
          rw [update_by_id_eq_map, List.map_map]
          have hmap : s.db.posts.map
              (upd_fun rest (dict_erase i.file_path s.work) ∘
                fun p => if p.id = q.id then apply_update_fields p (post_update_of i) else p)
              = s.db.posts.map (upd_fun (i :: rest) s.work) :=
            List.map_congr_left fun p _ => upd_fun_step_changed hg hh h4 hiN p
          rw [hmap, hfHas, List.filter_cons, hhas]
          simp
        · rw [gn]
          dsimp only [crud_update]
          rw [hcHas, List.countP_cons, hhas]
          simp
      · rw [sync_step_unchanged hg hh]
        have h3' : ∀ kv ∈ dict_erase i.file_path s.work, kv.2 ∈ s.db.posts :=
          fun kv hkv => h3 kv (mem_dict_erase hkv).1
        have h5' : ∀ kv ∈ dict_erase i.file_path s.work, kv.2.id < s.db.nextId :=
          fun kv hkv => h5 kv (mem_dict_erase hkv).1
        obtain ⟨ga, gu, gd, gw, gp, gn⟩ :=
          sync_loop_spec now rest ⟨s.db, dict_erase i.file_path s.work, s.stats⟩
            hS' h1' h2' h3' h4' h5' h6
        refine ⟨?_, ?_, ?_, ?_, ?_, ?_⟩
        · rw [ga]
          dsimp only
          rw [hcHas, List.countP_cons, hhas]
          simp
        · rw [gu]
          dsimp only
          have hci : is_changed s.work i = false := by
            rw [is_changed, hg]
            exact decide_eq_false hh
          rw [hcCh, List.countP_cons, hci]
          simp
        · rw [gd]
        · rw [gw]
          exact hw
        · rw [gp]
          dsimp only
          have hmap : s.db.posts.map (upd_fun rest (dict_erase i.file_path s.work))
              = s.db.posts.map (upd_fun (i :: rest) s.work) :=
            List.map_congr_left fun p _ => upd_fun_step_unchanged hg hh hiN p
          rw [hmap, hfHas, List.filter_cons, hhas]
          simp
        · rw [gn]
          dsimp only
          rw [hcHas, List.countP_cons, hhas]
          simp
    | none =>
      have hnot : dict_has i.file_path s.work = false := (dict_get_none_iff _ _).mp hg
      rw [sync_step_create hg]
      have h3' : ∀ kv ∈ s.work,
          kv.2 ∈ (crud_create s.db now (post_create_of i)).posts :=
        fun kv hkv => List.mem_append_left _ (h3 kv hkv)
      have h5' : ∀ kv ∈ s.work,
          kv.2.id < (crud_create s.db now (post_create_of i)).nextId :=
        fun kv hkv => Nat.lt_succ_of_lt (h5 kv hkv)
      have h6' : ∀ p ∈ (crud_create s.db now (post_create_of i)).posts,
          p.id < (crud_create s.db now (post_create_of i)).nextId := by
        intro p hp
        rcases List.mem_append.mp hp with hp | hp
        · exact Nat.lt_succ_of_lt (h6 p hp)
        · rw [List.mem_singleton.mp hp]
          exact Nat.lt_succ_self _
      obtain ⟨ga, gu, gd, gw, gp, gn⟩ :=
        sync_loop_spec now rest
          ⟨crud_create s.db now (post_create_of i),
           s.work,
           ⟨s.stats.added + 1, s.stats.updated, s.stats.deleted⟩⟩
          hS' h1 h2 h3' h4 h5' h6'
      refine ⟨?_, ?_, ?_, ?_, ?_, ?_⟩
      · rw [ga]
        dsimp only
        rw [List.countP_cons, hnot]
        simp
        omega
      · rw [gu]
        dsimp only
        have hci : is_changed s.work i = false := by
          rw [is_changed, hg]
        rw [List.countP_cons, hci]
        simp
      · rw [gd]
      · rw [gw]
        refine List.filter_congr ?_
        intro kv hkv
        have hne : kv.1 ≠ i.file_path := dict_has_false_forall hnot kv hkv
        show survives rest kv = survives (i :: rest) kv
        rw [survives, survives, List.all_cons,
          decide_eq_true (show ¬ i.file_path = kv.1 from fun hc => hne hc.symm), Bool.true_and]
      · rw [gp]
        dsimp only [crud_create]
        rw [List.map_append]
        have hmap : s.db.posts.map (upd_fun rest s.work)
            = s.db.posts.map (upd_fun (i :: rest) s.work) :=
          List.map_congr_left fun p _ => upd_fun_step_create hg p
        have hfresh : upd_fun rest s.work (new_post_row s.db.nextId now (post_create_of i))
            = new_post_row s.db.nextId now (post_create_of i) :=
          upd_fun_fresh fun kv hkv => Nat.ne_of_lt (h5 kv hkv)
        rw [hmap, List.map_cons, List.map_nil, hfresh, List.filter_cons, hnot]
        simp only [Bool.not_false, if_pos rfl]
        simp only [mk_creates]
        simp
      · rw [gn]
        dsimp only [crud_create]
        rw [List.countP_cons, hnot]
        simp
        omega

/-! ## The delete-sweep characterization -/

theorem delete_loop_spec :
    ∀ (ws : List (String × Post)) (d : DbState) (st : SyncStats),
    delete_loop ws (d, st) =
      (⟨d.posts.filter (not_deleted ws), d.nextId⟩,
       ⟨st.added, st.updated, st.deleted + ws.length⟩)
  | [], d, st => by
    have h1 : d.posts.filter (not_deleted []) = d.posts := by
      have h : ∀ p ∈ d.posts, not_deleted [] p = true := fun p _ => rfl
      rw [List.filter_congr h, List.filter_true]
    rw [delete_loop, h1]
    rfl
  | kv :: rest, d, st => by
    have hposts : (delete_by_id kv.2.id d.posts).filter (not_deleted rest)
        = d.posts.filter (not_deleted (kv :: rest)) := by
      rw [delete_by_id_eq_filter, List.filter_filter]
      refine List.filter_congr ?_
      intro p _
      show (not_deleted rest p && decide (¬ p.id = kv.2.id)) = not_deleted (kv :: rest) p
      simp only [not_deleted, List.all_cons]
      rw [Bool.and_comm]
    rw [delete_loop]
    dsimp only
    rw [delete_loop_spec rest (crud_delete d kv.2.id) ⟨st.added, st.updated, st.deleted + 1⟩]
    dsimp only [crud_delete]
    rw [hposts, List.length_cons, Nat.add_assoc, Nat.add_comm 1 rest.length]

/-! ## Facts about rows produced or rewritten by a run -/

theorem upd_fun_id (scanned : List PostInfo) (m : List (String × Post)) (p : Post) :
    (upd_fun scanned m p).id = p.id := by
  rw [upd_fun]
  cases scanned.find? (upd_pred m p) with
  | none => rfl
  | some i => rw [apply_update_fields_id]

theorem upd_fun_file_path (scanned : List PostInfo) (m : List (String × Post)) (p : Post) :
    (upd_fun scanned m p).file_path = p.file_path := by
  rw [upd_fun]
  cases scanned.find? (upd_pred m p) with
  | none => rfl
  | some i => rfl

theorem upd_fun_view_count (scanned : List PostInfo) (m : List (String × Post)) (p : Post) :
    (upd_fun scanned m p).view_count = p.view_count := by
  rw [upd_fun]
  cases scanned.find? (upd_pred m p) with
  | none => rfl
  | some i => rfl

theorem upd_fun_status (scanned : List PostInfo) (m : List (String × Post)) (p : Post) :
    (upd_fun scanned m p).status = p.status := by
  rw [upd_fun]
  cases scanned.find? (upd_pred m p) with
  | none => rfl
  | some i => rfl

theorem upd_fun_slug (scanned : List PostInfo) (m : List (String × Post)) (p : Post) :
    (upd_fun scanned m p).slug = p.slug := by
  rw [upd_fun]
  cases scanned.find? (upd_pred m p) with
  | none => rfl
  | some i => rfl

theorem upd_fun_created_at (scanned : List PostInfo) (m : List (String × Post)) (p : Post) :
    (upd_fun scanned m p).created_at = p.created_at := by
  rw [upd_fun]
  cases scanned.find? (upd_pred m p) with
  | none => rfl
  | some i => rfl

theorem mk_creates_id_bound {now : Nat} :
    ∀ {nid : Nat} {l : List PostInfo} {r : Post}, r ∈ mk_creates now nid l →
      nid ≤ r.id ∧ r.id < nid + l.length
  | nid, [], r, h => by simp [mk_creates] at h
  | nid, i :: rest, r, h => by
    rw [mk_creates] at h
    rcases List.mem_cons.mp h with rfl | h'
    · refine ⟨Nat.le_refl _, ?_⟩
      show nid < nid + (i :: rest).length
      rw [List.length_cons]
      omega
    · have := mk_creates_id_bound h'
      constructor
      · omega
      · rw [List.length_cons]; omega

theorem mk_creates_ids_nodup {now : Nat} :
    ∀ (nid : Nat) (l : List PostInfo), ((mk_creates now nid l).map Post.id).Nodup
  | nid, [] => by simp [mk_creates]
  | nid, i :: rest => by
    rw [mk_creates, List.map_cons, List.nodup_cons]
    refine ⟨?_, mk_creates_ids_nodup (nid + 1) rest⟩
    intro hmem
    obtain ⟨r, hr, hrid⟩ := List.mem_map.mp hmem
    have := (mk_creates_id_bound hr).1
    rw [hrid] at this
    have hb : (new_post_row nid now (post_create_of i)).id = nid := rfl
    rw [hb] at this
    omega

theorem mk_creates_map_path {now : Nat} :
    ∀ (nid : Nat) (l : List PostInfo),
      (mk_creates now nid l).map Post.file_path = l.map PostInfo.file_path
  | nid, [] => rfl
  | nid, i :: rest => by
    rw [mk_creates, List.map_cons, List.map_cons, mk_creates_map_path (nid + 1) rest]
    rfl

theorem mk_creates_mem_spec {now : Nat} :
    ∀ {nid : Nat} {l : List PostInfo} {r : Post}, r ∈ mk_creates now nid l →
      ∃ i ∈ l, r.file_path = i.file_path ∧ r.file_hash = i.file_hash ∧
        r.status = PostStatusEnum.SHOW ∧ r.view_count = 0
  | nid, [], r, h => by simp [mk_creates] at h
  | nid, i :: rest, r, h => by
    rw [mk_creates] at h
    rcases List.mem_cons.mp h with rfl | h'
    · exact ⟨i, List.mem_cons_self _ _, rfl, rfl, rfl, rfl⟩
    · obtain ⟨j, hj, hspec⟩ := mk_creates_mem_spec h'
      exact ⟨j, List.mem_cons_of_mem _ hj, hspec⟩

theorem all_not_eq_not_any {α : Type} (l : List α) (P : α → Prop) [DecidablePred P] :
    (l.all fun a => decide (¬ P a)) = !(l.any fun a => decide (P a)) := by
  induction l with
  | nil => rfl
  | cons a rest ih => rw [List.all_cons, List.any_cons, Bool.not_or, ih, decide_not]

theorem is_changed_pairing {posts : List Post}
    (h : (posts.map Post.file_path).Nodup) (i : PostInfo) :
    is_changed (posts.map fun p => (p.file_path, p)) i
      = posts.any fun p =>
          decide (p.file_path = i.file_path ∧ p.file_hash ≠ i.file_hash) := by
  rw [is_changed, dict_get_pairing]
  induction posts with
  | nil => rfl
  | cons p rest ih =>
    rw [List.map_cons, List.nodup_cons] at h
    by_cases hp : p.file_path = i.file_path
    · rw [List.find?_cons_of_pos _ (by simpa using hp)]
      have hrest : (rest.any fun q =>
          decide (q.file_path = i.file_path ∧ q.file_hash ≠ i.file_hash)) = false := by
        rw [List.any_eq_false]
        intro q hq
        simp only [decide_eq_true_eq, not_and]
        intro hqp
        exact absurd (List.mem_map_of_mem Post.file_path hq)
          (by rw [hqp, ← hp]; exact h.1)
      rw [List.any_cons, hrest, Bool.or_false]
      show decide (p.file_hash ≠ i.file_hash)
          = decide (p.file_path = i.file_path ∧ p.file_hash ≠ i.file_hash)
      exact decide_eq_decide.mpr (and_iff_right hp).symm
    · rw [List.find?_cons_of_neg _ (by simpa using hp), ih h.2]
      simp [hp]

/-! ## The run characterization -/

theorem sync_core_char (now : Nat) (scanned : List PostInfo) (db : DbState)
    (hdb : DbOk db) (hS : (scanned.map PostInfo.file_path).Nodup) :
    (sync_core now scanned db).1.posts
        = (db.posts.filter fun p => scanned.any fun i =>
              decide (i.file_path = p.file_path)).map
            (upd_fun scanned (db.posts.map fun p => (p.file_path, p)))
          ++ mk_creates now db.nextId
              (scanned.filter fun i =>
                !(db.posts.any fun p => decide (p.file_path = i.file_path))) ∧
    (sync_core now scanned db).1.nextId
        = db.nextId + scanned.countP (fun i =>
            !(db.posts.any fun p => decide (p.file_path = i.file_path))) ∧
    (sync_core now scanned db).2
        = ⟨scanned.countP fun i =>
             !(db.posts.any fun p => decide (p.file_path = i.file_path)),
           scanned.countP fun i => db.posts.any fun p =>
             decide (p.file_path = i.file_path ∧ p.file_hash ≠ i.file_hash),
           db.posts.countP fun p =>
             !(scanned.any fun i => decide (i.file_path = p.file_path))⟩ := by
  obtain ⟨hpn, hin, hilt⟩ := hdb
  have hw0 : posts_by_path db.posts = db.posts.map fun p => (p.file_path, p) :=
    posts_by_path_eq hpn
  have h1 : ∀ kv ∈ db.posts.map (fun p => (p.file_path, p)), kv.2.file_path = kv.1 := by
    intro kv hkv
    obtain ⟨p, _, rfl⟩ := List.mem_map.mp hkv
    rfl
  have h2 : ((db.posts.map fun p => (p.file_path, p)).map Prod.fst).Nodup := by
    rw [List.map_map]
    exact hpn
  have h3 : ∀ kv ∈ db.posts.map (fun p => (p.file_path, p)), kv.2 ∈ db.posts := by
    intro kv hkv
    obtain ⟨p, hp, rfl⟩ := List.mem_map.mp hkv
    exact hp
  have h4 : ((db.posts.map fun p => (p.file_path, p)).map fun kv => kv.2.id).Nodup := by
    rw [List.map_map]
    exact hin
  have h5 : ∀ kv ∈ db.posts.map (fun p => (p.file_path, p)), kv.2.id < db.nextId := by
    intro kv hkv
    obtain ⟨p, hp, rfl⟩ := List.mem_map.mp hkv
    exact hilt p hp
  obtain ⟨ga, gu, gd, gw, gp, gn⟩ :=
    sync_loop_spec now scanned
      ⟨db, db.posts.map fun p => (p.file_path, p), ⟨0, 0, 0⟩⟩ hS h1 h2 h3 h4 h5 hilt
  have hrew : sync_core now scanned db
      = delete_loop
          (sync_loop now scanned ⟨db, posts_by_path db.posts, ⟨0, 0, 0⟩⟩).work
          ((sync_loop now scanned ⟨db, posts_by_path db.posts, ⟨0, 0, 0⟩⟩).db,
           (sync_loop now scanned ⟨db, posts_by_path db.posts, ⟨0, 0, 0⟩⟩).stats) := rfl
  rw [hw0] at hrew
  rw [hrew, delete_loop_spec]
  have eadd : (sync_loop now scanned
      ⟨db, db.posts.map fun p => (p.file_path, p), ⟨0, 0, 0⟩⟩).stats.added
      = scanned.countP fun i =>
          !(db.posts.any fun p => decide (p.file_path = i.file_path)) := by
    rw [ga]
    dsimp only
    rw [Nat.zero_add]
    exact countP_eq_of_congr scanned fun i _ => by rw [dict_has_pairing]
  have eupd : (sync_loop now scanned
      ⟨db, db.posts.map fun p => (p.file_path, p), ⟨0, 0, 0⟩⟩).stats.updated
      = scanned.countP fun i => db.posts.any fun p =>
          decide (p.file_path = i.file_path ∧ p.file_hash ≠ i.file_hash) := by
    rw [gu]
    dsimp only
    rw [Nat.zero_add]
    exact countP_eq_of_congr scanned fun i _ => is_changed_pairing hpn i
  have edel : (sync_loop now scanned
        ⟨db, db.posts.map fun p => (p.file_path, p), ⟨0, 0, 0⟩⟩).stats.deleted
        + (sync_loop now scanned
            ⟨db, db.posts.map fun p => (p.file_path, p), ⟨0, 0, 0⟩⟩).work.length
      = db.posts.countP fun p =>
          !(scanned.any fun i => decide (i.file_path = p.file_path)) := by
    rw [gd, gw]
    dsimp only
    rw [Nat.zero_add, List.filter_map, List.length_map, ← List.countP_eq_length_filter]
    refine countP_eq_of_congr db.posts ?_
    intro p _
    show survives scanned (p.file_path, p)
        = !(scanned.any fun i => decide (i.file_path = p.file_path))
    exact all_not_eq_not_any scanned fun i => i.file_path = p.file_path
  refine ⟨?_, ?_, ?_⟩
  · show (sync_loop now scanned
        ⟨db, db.posts.map fun p => (p.file_path, p), ⟨0, 0, 0⟩⟩).db.posts.filter
          (not_deleted (sync_loop now scanned
            ⟨db, db.posts.map fun p => (p.file_path, p), ⟨0, 0, 0⟩⟩).work) = _
    rw [gp, gw]
    dsimp only
    rw [List.filter_append]
    have hcre : (mk_creates now db.nextId (scanned.filter fun j =>
          !(dict_has j.file_path (db.posts.map fun p => (p.file_path, p))))).filter
          (not_deleted ((db.posts.map fun p => (p.file_path, p)).filter
            (survives scanned)))
        = mk_creates now db.nextId (scanned.filter fun j =>
            !(dict_has j.file_path (db.posts.map fun p => (p.file_path, p)))) := by
      rw [List.filter_eq_self]
      intro r hr
      rw [not_deleted, List.all_eq_true]
      intro kv hkv
      have hkv' := List.mem_filter.mp hkv
      obtain ⟨p, hp, rfl⟩ := List.mem_map.mp hkv'.1
      have hlt : p.id < db.nextId := hilt p hp
      have hge : db.nextId ≤ r.id := (mk_creates_id_bound hr).1
      simp only [decide_eq_true_eq]
      omega
    rw [hcre]
    have hmapf : (db.posts.map (upd_fun scanned
            (db.posts.map fun p => (p.file_path, p)))).filter
          (not_deleted ((db.posts.map fun p => (p.file_path, p)).filter
            (survives scanned)))
        = (db.posts.filter fun p => scanned.any fun i =>
              decide (i.file_path = p.file_path)).map
            (upd_fun scanned (db.posts.map fun p => (p.file_path, p))) := by
      rw [List.filter_map]
      congr 1
      refine List.filter_congr ?_
      intro p hp
      show not_deleted
            ((db.posts.map fun p => (p.file_path, p)).filter (survives scanned))
            (upd_fun scanned (db.posts.map fun p => (p.file_path, p)) p)
          = scanned.any fun i => decide (i.file_path = p.file_path)
      have hfn : (fun kv : String × Post =>
            decide (¬ (upd_fun scanned (db.posts.map fun p => (p.file_path, p)) p).id
              = kv.2.id))
          = fun kv : String × Post => decide (¬ p.id = kv.2.id) :=
        funext fun kv => by rw [upd_fun_id]
      rw [not_deleted, hfn,
        all_not_eq_not_any _ (fun kv : String × Post => p.id = kv.2.id)]
      cases hmatch : scanned.any fun i => decide (i.file_path = p.file_path) with
      | true =>
        have hnone : ((db.posts.map fun p => (p.file_path, p)).filter
              (survives scanned)).any (fun kv => decide (p.id = kv.2.id)) = false := by
          rw [List.any_eq_false]
          intro kv hkv
          have hm := List.mem_filter.mp hkv
          obtain ⟨q, hq, rfl⟩ := List.mem_map.mp hm.1
          simp only [decide_eq_true_eq]
          intro hid
          have hqp : q = p := List.inj_on_of_nodup_map hin hq hp hid.symm
          obtain ⟨i, hi, hidec⟩ := List.any_eq_true.mp hmatch
          have hsv := hm.2
          rw [survives, List.all_eq_true] at hsv
          have hni := hsv i hi
          rw [hqp] at hni
          simp only [decide_eq_true_eq] at hni
          exact hni (of_decide_eq_true hidec)
        rw [hnone]
        rfl
      | false =>
        have hall := List.any_eq_false.mp hmatch
        have hmem : (p.file_path, p) ∈ (db.posts.map fun p => (p.file_path, p)).filter
            (survives scanned) := by
          rw [List.mem_filter]
          refine ⟨List.mem_map_of_mem _ hp, ?_⟩
          rw [survives, List.all_eq_true]
          intro i hi
          have := hall i hi
          simp only [decide_eq_true_eq] at this ⊢
          exact this
        have hsome : ((db.posts.map fun p => (p.file_path, p)).filter
              (survives scanned)).any (fun kv => decide (p.id = kv.2.id)) = true :=
          List.any_eq_true.mpr ⟨(p.file_path, p), hmem, by simp⟩
        rw [hsome]
        rfl
    rw [hmapf]
    have hfc : (scanned.filter fun j =>
          !(dict_has j.file_path (db.posts.map fun p => (p.file_path, p))))
        = scanned.filter fun i =>
            !(db.posts.any fun p => decide (p.file_path = i.file_path)) :=
      List.filter_congr fun j _ => by rw [dict_has_pairing]
    rw [hfc]
  · show (sync_loop now scanned
        ⟨db, db.posts.map fun p => (p.file_path, p), ⟨0, 0, 0⟩⟩).db.nextId = _
    rw [gn]
    dsimp only
    congr 1
    exact countP_eq_of_congr scanned fun i _ => by rw [dict_has_pairing]
  · show (⟨_, _, _⟩ : SyncStats) = _
    rw [SyncStats.mk.injEq]
    exact ⟨eadd, eupd, edel⟩

/-! ## Consequences of the characterization -/

theorem find_eq_some_of_unique {α : Type} {pred : α → Bool} :
    ∀ {l : List α} {a : α}, a ∈ l → pred a = true →
      (∀ b ∈ l, pred b = true → b = a) → l.find? pred = some a
  | [], a, ha, _, _ => by cases ha
  | b :: rest, a, ha, hpa, huni => by
    by_cases hb : pred b = true
    · rw [List.find?_cons_of_pos _ hb, huni b (List.mem_cons_self _ _) hb]
    · rw [List.find?_cons_of_neg _ hb]
      rcases List.mem_cons.mp ha with rfl | ha'
      · exact absurd hpa hb
      · exact find_eq_some_of_unique ha' hpa
          fun c hc hpc => huni c (List.mem_cons_of_mem _ hc) hpc

theorem dict_get_pairing_self {db : DbState} {p : Post} {k : String}
    (hpn : (db.posts.map Post.file_path).Nodup) (hp : p ∈ db.posts)
    (hk : p.file_path = k) :
    dict_get k (db.posts.map fun p => (p.file_path, p)) = some p := by
  rw [dict_get_pairing]
  refine find_eq_some_of_unique hp (decide_eq_true hk) ?_
  intro b hb hbp
  exact List.inj_on_of_nodup_map hpn hb hp (by rw [of_decide_eq_true hbp, hk])

/-- A row matched by scanned descriptor `i` ends up carrying exactly `i`'s
hash: the update rewrote it when it differed, and it already agreed
otherwise. -/
theorem upd_fun_matched_hash {scanned : List PostInfo} {db : DbState}
    {p : Post} {i : PostInfo}
    (hpn : (db.posts.map Post.file_path).Nodup)
    (hin : (db.posts.map Post.id).Nodup)
    (hS : (scanned.map PostInfo.file_path).Nodup)
    (hp : p ∈ db.posts) (hi : i ∈ scanned)
    (hpath : i.file_path = p.file_path) :
    (upd_fun scanned (db.posts.map fun p => (p.file_path, p)) p).file_hash
      = i.file_hash := by
  have hgi : dict_get i.file_path (db.posts.map fun p => (p.file_path, p)) = some p :=
    dict_get_pairing_self hpn hp hpath.symm
  have hkey : ∀ j ∈ scanned,
      upd_pred (db.posts.map fun p => (p.file_path, p)) p j = true → j = i := by
    intro j hj hpred
    rw [upd_pred] at hpred
    cases hg : dict_get j.file_path (db.posts.map fun p => (p.file_path, p)) with
    | none => rw [hg] at hpred; cases hpred
    | some q =>
      rw [hg] at hpred
      have hqp := of_decide_eq_true hpred
      have hqm := dict_get_some_mem hg
      obtain ⟨q₀, hq₀, heq⟩ := List.mem_map.mp hqm
      have hql : q₀ = q := congrArg Prod.snd heq
      have hqpath : q.file_path = j.file_path := by
        rw [← hql]
        exact congrArg Prod.fst heq
      have hqdb : q ∈ db.posts := hql ▸ hq₀
      have hqisp : q = p := List.inj_on_of_nodup_map hin hqdb hp hqp.1
      refine List.inj_on_of_nodup_map hS hj hi ?_
      show j.file_path = i.file_path
      rw [← hqpath, hqisp, hpath]
  by_cases hch : p.file_hash ≠ i.file_hash
  · have hpredi : upd_pred (db.posts.map fun p => (p.file_path, p)) p i = true := by
      rw [upd_pred, hgi]
      exact decide_eq_true ⟨rfl, hch⟩
    rw [upd_fun, find_eq_some_of_unique hi hpredi hkey]
    rfl
  · have hnone : scanned.find?
        (upd_pred (db.posts.map fun p => (p.file_path, p)) p) = none := by
      rw [List.find?_eq_none]
      intro j hj hpred
      have hji : j = i := hkey j hj hpred
      rw [hji, upd_pred, hgi] at hpred
      exact hch (of_decide_eq_true hpred).2
    rw [upd_fun, hnone]
    simpa using hch

theorem sync_core_map_path (now : Nat) (scanned : List PostInfo) (db : DbState)
    (hdb : DbOk db) (hS : (scanned.map PostInfo.file_path).Nodup) :
    (sync_core now scanned db).1.posts.map Post.file_path
      = (db.posts.filter fun p => scanned.any fun i =>
            decide (i.file_path = p.file_path)).map Post.file_path
        ++ (scanned.filter fun i =>
            !(db.posts.any fun p => decide (p.file_path = i.file_path))).map
              PostInfo.file_path := by
  obtain ⟨hposts, -, -⟩ := sync_core_char now scanned db hdb hS
  rw [hposts, List.map_append, List.map_map, mk_creates_map_path]
  congr 1
  exact List.map_congr_left fun p _ => upd_fun_file_path _ _ p

theorem sync_core_paths_nodup (now : Nat) (scanned : List PostInfo) (db : DbState)
    (hdb : DbOk db) (hS : (scanned.map PostInfo.file_path).Nodup) :
    ((sync_core now scanned db).1.posts.map Post.file_path).Nodup := by
  rw [sync_core_map_path now scanned db hdb hS]
  obtain ⟨hpn, -, -⟩ := hdb
  refine List.Nodup.append ?_ ?_ ?_
  · exact List.Nodup.sublist ((List.filter_sublist _).map _) hpn
  · exact List.Nodup.sublist ((List.filter_sublist _).map _) hS
  · intro q hq₁ hq₂
    obtain ⟨p, hpf, rfl⟩ := List.mem_map.mp hq₁
    obtain ⟨i, hif, hpi⟩ := List.mem_map.mp hq₂
    have hif' := List.mem_filter.mp hif
    have hpmem := (List.mem_filter.mp hpf).1
    have : (db.posts.any fun r => decide (r.file_path = i.file_path)) = true :=
      List.any_eq_true.mpr ⟨p, hpmem, decide_eq_true hpi.symm⟩
    rw [this] at hif'
    cases hif'.2

theorem sync_core_paths_mem (now : Nat) (scanned : List PostInfo) (db : DbState)
    (hdb : DbOk db) (hS : (scanned.map PostInfo.file_path).Nodup) (q : String) :
    q ∈ (sync_core now scanned db).1.posts.map Post.file_path
      ↔ q ∈ scanned.map PostInfo.file_path := by
  rw [sync_core_map_path now scanned db hdb hS, List.mem_append]
  constructor
  · rintro (hq | hq)
    · obtain ⟨p, hpf, rfl⟩ := List.mem_map.mp hq
      have hm := List.mem_filter.mp hpf
      obtain ⟨i, hi, hdec⟩ := List.any_eq_true.mp hm.2
      exact (of_decide_eq_true hdec) ▸ List.mem_map_of_mem PostInfo.file_path hi
    · obtain ⟨i, hif, rfl⟩ := List.mem_map.mp hq
      exact List.mem_map_of_mem PostInfo.file_path (List.mem_filter.mp hif).1
  · intro hq
    obtain ⟨i, hi, rfl⟩ := List.mem_map.mp hq
    cases hany : db.posts.any fun p => decide (p.file_path = i.file_path) with
    | true =>
      left
      obtain ⟨p, hp, hdec⟩ := List.any_eq_true.mp hany
      have hpi : p.file_path = i.file_path := of_decide_eq_true hdec
      refine hpi ▸ List.mem_map_of_mem Post.file_path ?_
      rw [List.mem_filter]
      exact ⟨hp, List.any_eq_true.mpr ⟨i, hi, decide_eq_true hpi.symm⟩⟩
    | false =>
      right
      refine List.mem_map_of_mem PostInfo.file_path ?_
      rw [List.mem_filter]
      exact ⟨hi, by rw [hany]; rfl⟩

theorem sync_core_db_ok (now : Nat) (scanned : List PostInfo) (db : DbState)
    (hdb : DbOk db) (hS : (scanned.map PostInfo.file_path).Nodup) :
    DbOk (sync_core now scanned db).1 := by
  obtain ⟨hposts, hnext, -⟩ := sync_core_char now scanned db hdb hS
  obtain ⟨hpn, hin, hilt⟩ := hdb
  refine ⟨sync_core_paths_nodup now scanned db ⟨hpn, hin, hilt⟩ hS, ?_, ?_⟩
  · rw [hposts, List.map_append, List.map_map]
    have hmap : (db.posts.filter fun p => scanned.any fun i =>
          decide (i.file_path = p.file_path)).map
          (Post.id ∘ upd_fun scanned (db.posts.map fun p => (p.file_path, p)))
        = (db.posts.filter fun p => scanned.any fun i =>
            decide (i.file_path = p.file_path)).map Post.id :=
      List.map_congr_left fun p _ => upd_fun_id _ _ p
    rw [hmap]
    refine List.Nodup.append ?_ (mk_creates_ids_nodup _ _) ?_
    · exact List.Nodup.sublist ((List.filter_sublist _).map _) hin
    · intro n hn₁ hn₂
      obtain ⟨p, hpf, rfl⟩ := List.mem_map.mp hn₁
      obtain ⟨r, hr, hri⟩ := List.mem_map.mp hn₂
      have h₁ : p.id < db.nextId := hilt p (List.mem_filter.mp hpf).1
      have h₂ : db.nextId ≤ r.id := (mk_creates_id_bound hr).1
      omega
  · intro r hr
    rw [hnext]
    rw [hposts] at hr
    rcases List.mem_append.mp hr with hr | hr
    · obtain ⟨p, hpf, rfl⟩ := List.mem_map.mp hr
      have h₁ : p.id < db.nextId := hilt p (List.mem_filter.mp hpf).1
      rw [upd_fun_id]
      omega
    · have h₂ := (mk_creates_id_bound hr).2
      rw [List.countP_eq_length_filter]
      omega

/-- Every row present after a run carries the hash of the descriptor that
matches its path. -/
theorem sync_core_hash (now : Nat) (scanned : List PostInfo) (db : DbState)
    (hdb : DbOk db) (hS : (scanned.map PostInfo.file_path).Nodup) :
    ∀ r ∈ (sync_core now scanned db).1.posts, ∀ i ∈ scanned,
      i.file_path = r.file_path → r.file_hash = i.file_hash := by
  obtain ⟨hposts, -, -⟩ := sync_core_char now scanned db hdb hS
  obtain ⟨hpn, hin, hilt⟩ := hdb
  intro r hr i hi hpath
  rw [hposts] at hr
  rcases List.mem_append.mp hr with hr | hr
  · obtain ⟨p, hpf, rfl⟩ := List.mem_map.mp hr
    have hp := (List.mem_filter.mp hpf).1
    refine upd_fun_matched_hash hpn hin hS hp hi ?_
    rw [hpath, upd_fun_file_path]
  · obtain ⟨j, hjf, hjp, hjh, -, -⟩ := mk_creates_mem_spec hr
    have hj := (List.mem_filter.mp hjf).1
    have hij : i = j := by
      refine List.inj_on_of_nodup_map hS hi hj ?_
      show i.file_path = j.file_path
      rw [hpath, hjp]
    rw [hjh, hij]

/-! ## The transactional runner -/

theorem fail_hits_none (n : Nat) : fail_hits none n = false := by
  simp [fail_hits]

theorem fail_hits_some (k n : Nat) : fail_hits (some k) n = decide (k = n) := by
  simp [fail_hits]

theorem tx_step_changed_ok {now : Nat} {fail_at : Option Nat} {s : TxState}
    {info : PostInfo} {q : Post}
    (hg : dict_get info.file_path s.work = some q)
    (hh : q.file_hash ≠ info.file_hash)
    (hf : fail_hits fail_at s.writes = false) :
    tx_step now fail_at s info = Except.ok
      ⟨crud_update s.pending q.id (post_update_of info),
       dict_erase info.file_path s.work,
       ⟨s.stats.added, s.stats.updated + 1, s.stats.deleted⟩,
       s.writes + 1⟩ := by
  simp only [tx_step, hg]
  rw [if_pos hh, if_neg (by rw [hf]; exact Bool.false_ne_true)]

theorem tx_step_changed_err {now : Nat} {fail_at : Option Nat} {s : TxState}
    {info : PostInfo} {q : Post}
    (hg : dict_get info.file_path s.work = some q)
    (hh : q.file_hash ≠ info.file_hash)
    (hf : fail_hits fail_at s.writes = true) :
    tx_step now fail_at s info = Except.error () := by
  simp only [tx_step, hg]
  rw [if_pos hh, if_pos hf]

theorem tx_step_noop {now : Nat} {fail_at : Option Nat} {s : TxState}
    {info : PostInfo} {q : Post}
    (hg : dict_get info.file_path s.work = some q)
    (hh : ¬ q.file_hash ≠ info.file_hash) :
    tx_step now fail_at s info = Except.ok
      ⟨s.pending, dict_erase info.file_path s.work, s.stats, s.writes⟩ := by
  simp only [tx_step, hg]
  rw [if_neg hh]

theorem tx_step_create_ok {now : Nat} {fail_at : Option Nat} {s : TxState}
    {info : PostInfo}
    (hg : dict_get info.file_path s.work = none)
    (hf : fail_hits fail_at s.writes = false) :
    tx_step now fail_at s info = Except.ok
      ⟨crud_create s.pending now (post_create_of info),
       s.work,
       ⟨s.stats.added + 1, s.stats.updated, s.stats.deleted⟩,
       s.writes + 1⟩ := by
  simp only [tx_step, hg]
  rw [if_neg (by rw [hf]; exact Bool.false_ne_true)]

theorem tx_step_create_err {now : Nat} {fail_at : Option Nat} {s : TxState}
    {info : PostInfo}
    (hg : dict_get info.file_path s.work = none)
    (hf : fail_hits fail_at s.writes = true) :
    tx_step now fail_at s info = Except.error () := by
  simp only [tx_step, hg]
  rw [if_pos hf]

theorem sync_loop_sum_mono (now : Nat) :
    ∀ (scanned : List PostInfo) (s : SyncState),
    s.stats.added + s.stats.updated + s.stats.deleted
      ≤ (sync_loop now scanned s).stats.added
        + (sync_loop now scanned s).stats.updated
        + (sync_loop now scanned s).stats.deleted
  | [], s => Nat.le_refl _
  | i :: rest, s => by
    rw [sync_loop]
    refine Nat.le_trans ?_ (sync_loop_sum_mono now rest (sync_step now s i))
    cases hg : dict_get i.file_path s.work with
    | some q =>
      by_cases hh : q.file_hash ≠ i.file_hash
      · rw [sync_step_changed hg hh]
        dsimp only
        omega
      · rw [sync_step_unchanged hg hh]
    | none =>
      rw [sync_step_create hg]
      dsimp only
      omega

theorem tx_loop_none (now : Nat) :
    ∀ (scanned : List PostInfo) (d : DbState) (w : List (String × Post))
      (st : SyncStats) (n : Nat),
    n = st.added + st.updated + st.deleted →
    tx_loop now none scanned ⟨d, w, st, n⟩ =
      Except.ok
        ⟨(sync_loop now scanned ⟨d, w, st⟩).db,
         (sync_loop now scanned ⟨d, w, st⟩).work,
         (sync_loop now scanned ⟨d, w, st⟩).stats,
         (sync_loop now scanned ⟨d, w, st⟩).stats.added
           + (sync_loop now scanned ⟨d, w, st⟩).stats.updated
           + (sync_loop now scanned ⟨d, w, st⟩).stats.deleted⟩
  | [], d, w, st, n, hn => by
    rw [tx_loop, sync_loop, hn]
  | i :: rest, d, w, st, n, hn => by
    rw [tx_loop, sync_loop]
    cases hg : dict_get i.file_path w with
    | some q =>
      by_cases hh : q.file_hash ≠ i.file_hash
      · rw [tx_step_changed_ok (s := ⟨d, w, st, n⟩) hg hh (fail_hits_none _),
          sync_step_changed (s := ⟨d, w, st⟩) hg hh]
        exact tx_loop_none now rest (crud_update d q.id (post_update_of i))
          (dict_erase i.file_path w) ⟨st.added, st.updated + 1, st.deleted⟩ (n + 1)
          (by show n + 1 = st.added + (st.updated + 1) + st.deleted; omega)
      · rw [tx_step_noop (s := ⟨d, w, st, n⟩) hg hh,
          sync_step_unchanged (s := ⟨d, w, st⟩) hg hh]
        exact tx_loop_none now rest d (dict_erase i.file_path w) st n hn
    | none =>
      rw [tx_step_create_ok (s := ⟨d, w, st, n⟩) hg (fail_hits_none _),
        sync_step_create (s := ⟨d, w, st⟩) hg]
      exact tx_loop_none now rest (crud_create d now (post_create_of i)) w
        ⟨st.added + 1, st.updated, st.deleted⟩ (n + 1)
        (by show n + 1 = st.added + 1 + st.updated + st.deleted; omega)

theorem tx_loop_fail (now k : Nat) :
    ∀ (scanned : List PostInfo) (d : DbState) (w : List (String × Post))
      (st : SyncStats) (n : Nat),
    n = st.added + st.updated + st.deleted → n ≤ k →
    tx_loop now (some k) scanned ⟨d, w, st, n⟩ =
      (if k < (sync_loop now scanned ⟨d, w, st⟩).stats.added
            + (sync_loop now scanned ⟨d, w, st⟩).stats.updated
            + (sync_loop now scanned ⟨d, w, st⟩).stats.deleted
       then Except.error ()
       else Except.ok
        ⟨(sync_loop now scanned ⟨d, w, st⟩).db,
         (sync_loop now scanned ⟨d, w, st⟩).work,
         (sync_loop now scanned ⟨d, w, st⟩).stats,
         (sync_loop now scanned ⟨d, w, st⟩).stats.added
           + (sync_loop now scanned ⟨d, w, st⟩).stats.updated
           + (sync_loop now scanned ⟨d, w, st⟩).stats.deleted⟩)
  | [], d, w, st, n, hn, hk => by
    rw [tx_loop, sync_loop,
      if_neg (show ¬ k < st.added + st.updated + st.deleted by omega), hn]
  | i :: rest, d, w, st, n, hn, hk => by
    rw [tx_loop, sync_loop]
    cases hg : dict_get i.file_path w with
    | some q =>
      by_cases hh : q.file_hash ≠ i.file_hash
      · by_cases hkn : n = k
        · rw [tx_step_changed_err (s := ⟨d, w, st, n⟩) hg hh
            (by rw [fail_hits_some]; exact decide_eq_true hkn.symm)]
          rw [sync_step_changed (s := ⟨d, w, st⟩) hg hh]
          have hmono := sync_loop_sum_mono now rest
            ⟨crud_update d q.id (post_update_of i), dict_erase i.file_path w,
             ⟨st.added, st.updated + 1, st.deleted⟩⟩
          have hmono' : st.added + (st.updated + 1) + st.deleted
              ≤ (sync_loop now rest
                  ⟨crud_update d q.id (post_update_of i), dict_erase i.file_path w,
                   ⟨st.added, st.updated + 1, st.deleted⟩⟩).stats.added
                + (sync_loop now rest
                    ⟨crud_update d q.id (post_update_of i), dict_erase i.file_path w,
                     ⟨st.added, st.updated + 1, st.deleted⟩⟩).stats.updated
                + (sync_loop now rest
                    ⟨crud_update d q.id (post_update_of i), dict_erase i.file_path w,
                     ⟨st.added, st.updated + 1, st.deleted⟩⟩).stats.deleted := hmono
          dsimp only
          rw [if_pos (by omega)]
        · rw [tx_step_changed_ok (s := ⟨d, w, st, n⟩) hg hh
            (by rw [fail_hits_some]; exact decide_eq_false fun hc => hkn hc.symm)]
          rw [sync_step_changed (s := ⟨d, w, st⟩) hg hh]
          exact tx_loop_fail now k rest (crud_update d q.id (post_update_of i))
            (dict_erase i.file_path w) ⟨st.added, st.updated + 1, st.deleted⟩ (n + 1)
            (by show n + 1 = st.added + (st.updated + 1) + st.deleted; omega)
            (by omega)
      · rw [tx_step_noop (s := ⟨d, w, st, n⟩) hg hh,
          sync_step_unchanged (s := ⟨d, w, st⟩) hg hh]
        exact tx_loop_fail now k rest d (dict_erase i.file_path w) st n hn hk
    | none =>
      by_cases hkn : n = k
      · rw [tx_step_create_err (s := ⟨d, w, st, n⟩) hg
          (by rw [fail_hits_some]; exact decide_eq_true hkn.symm)]
        rw [sync_step_create (s := ⟨d, w, st⟩) hg]
        have hmono := sync_loop_sum_mono now rest
          ⟨crud_create d now (post_create_of i), w,
           ⟨st.added + 1, st.updated, st.deleted⟩⟩
        have hmono' : st.added + 1 + st.updated + st.deleted
            ≤ (sync_loop now rest
                ⟨crud_create d now (post_create_of i), w,
                 ⟨st.added + 1, st.updated, st.deleted⟩⟩).stats.added
              + (sync_loop now rest
                  ⟨crud_create d now (post_create_of i), w,
                   ⟨st.added + 1, st.updated, st.deleted⟩⟩).stats.updated
              + (sync_loop now rest
                  ⟨crud_create d now (post_create_of i), w,
                   ⟨st.added + 1, st.updated, st.deleted⟩⟩).stats.deleted := hmono
        dsimp only
        rw [if_pos (by omega)]
      · rw [tx_step_create_ok (s := ⟨d, w, st, n⟩) hg
          (by rw [fail_hits_some]; exact decide_eq_false fun hc => hkn hc.symm)]
        rw [sync_step_create (s := ⟨d, w, st⟩) hg]
        exact tx_loop_fail now k rest (crud_create d now (post_create_of i)) w
          ⟨st.added + 1, st.updated, st.deleted⟩ (n + 1)
          (by show n + 1 = st.added + 1 + st.updated + st.deleted; omega)
          (by omega)

theorem tx_delete_loop_none :
    ∀ (ws : List (String × Post)) (d : DbState) (wk : List (String × Post))
      (st : SyncStats) (n : Nat),
    tx_delete_loop none ws ⟨d, wk, st, n⟩ =
      Except.ok ⟨(delete_loop ws (d, st)).1, wk, (delete_loop ws (d, st)).2,
        n + ws.length⟩
  | [], d, wk, st, n => by
    rw [tx_delete_loop, delete_loop]
    rfl
  | kv :: rest, d, wk, st, n => by
    rw [tx_delete_loop, delete_loop,
      if_neg (show ¬ fail_hits none n = true by rw [fail_hits_none]; exact Bool.false_ne_true)]
    dsimp only
    rw [tx_delete_loop_none rest (crud_delete d kv.2.id) wk
      ⟨st.added, st.updated, st.deleted + 1⟩ (n + 1)]
    rw [List.length_cons, show n + 1 + rest.length = n + (rest.length + 1) from by omega]

theorem tx_delete_loop_fail (k : Nat) :
    ∀ (ws : List (String × Post)) (d : DbState) (wk : List (String × Post))
      (st : SyncStats) (n : Nat), n ≤ k →
    tx_delete_loop (some k) ws ⟨d, wk, st, n⟩ =
      (if k < n + ws.length then Except.error ()
       else Except.ok ⟨(delete_loop ws (d, st)).1, wk, (delete_loop ws (d, st)).2,
          n + ws.length⟩)
  | [], d, wk, st, n, hk => by
    rw [tx_delete_loop, delete_loop, if_neg (show ¬ k < n + [].length by
      rw [List.length_nil]; omega)]
    rfl
  | kv :: rest, d, wk, st, n, hk => by
    by_cases hkn : n = k
    · rw [tx_delete_loop, if_pos (show fail_hits (some k) n = true by
        rw [fail_hits_some]; exact decide_eq_true hkn.symm)]
      rw [if_pos (show k < n + (kv :: rest).length by rw [List.length_cons]; omega)]
    · rw [tx_delete_loop, if_neg (show ¬ fail_hits (some k) n = true by
        rw [fail_hits_some]; simp; omega)]
      dsimp only
      rw [delete_loop, tx_delete_loop_fail k rest (crud_delete d kv.2.id) wk
        ⟨st.added, st.updated, st.deleted + 1⟩ (n + 1) (by omega)]
      rw [List.length_cons, show n + 1 + rest.length = n + (rest.length + 1) from by omega]

theorem sync_tx_eq (now : Nat) (fail_at : Option Nat) (scanned : List PostInfo)
    (sess : Session) :
    sync_posts_to_database_tx now fail_at scanned sess =
      (match tx_loop now fail_at scanned
          ⟨sess.pending, posts_by_path sess.pending.posts, ⟨0, 0, 0⟩, 0⟩ with
       | Except.error e => (⟨sess.committed, sess.committed⟩, Except.error e)
       | Except.ok s1 =>
         match tx_delete_loop fail_at s1.work s1 with
         | Except.error e => (⟨sess.committed, sess.committed⟩, Except.error e)
         | Except.ok s2 => (⟨s2.pending, s2.pending⟩, Except.ok s2.stats)) := rfl

theorem sync_tx_none_run (now : Nat) (scanned : List PostInfo) (db : DbState) :
    sync_posts_to_database_tx now none scanned ⟨db, db⟩ =
      (⟨(sync_core now scanned db).1, (sync_core now scanned db).1⟩,
       Except.ok (sync_core now scanned db).2) := by
  rw [sync_tx_eq]
  rw [tx_loop_none now scanned db (posts_by_path db.posts) ⟨0, 0, 0⟩ 0 rfl]
  dsimp only
  rw [tx_delete_loop_none
    (sync_loop now scanned ⟨db, posts_by_path db.posts, ⟨0, 0, 0⟩⟩).work
    (sync_loop now scanned ⟨db, posts_by_path db.posts, ⟨0, 0, 0⟩⟩).db
    (sync_loop now scanned ⟨db, posts_by_path db.posts, ⟨0, 0, 0⟩⟩).work
    (sync_loop now scanned ⟨db, posts_by_path db.posts, ⟨0, 0, 0⟩⟩).stats
    ((sync_loop now scanned ⟨db, posts_by_path db.posts, ⟨0, 0, 0⟩⟩).stats.added
      + (sync_loop now scanned ⟨db, posts_by_path db.posts, ⟨0, 0, 0⟩⟩).stats.updated
      + (sync_loop now scanned ⟨db, posts_by_path db.posts, ⟨0, 0, 0⟩⟩).stats.deleted)]
  rfl

theorem sync_tx_fail_run (now : Nat) (scanned : List PostInfo) (db : DbState)
    (k : Nat)
    (hk : k < (sync_core now scanned db).2.added
      + (sync_core now scanned db).2.updated
      + (sync_core now scanned db).2.deleted) :
    sync_posts_to_database_tx now (some k) scanned ⟨db, db⟩ =
      (⟨db, db⟩, Except.error ()) := by
  have hds := delete_loop_spec
    (sync_loop now scanned ⟨db, posts_by_path db.posts, ⟨0, 0, 0⟩⟩).work
    (sync_loop now scanned ⟨db, posts_by_path db.posts, ⟨0, 0, 0⟩⟩).db
    (sync_loop now scanned ⟨db, posts_by_path db.posts, ⟨0, 0, 0⟩⟩).stats
  have hcore : sync_core now scanned db
      = delete_loop
          (sync_loop now scanned ⟨db, posts_by_path db.posts, ⟨0, 0, 0⟩⟩).work
          ((sync_loop now scanned ⟨db, posts_by_path db.posts, ⟨0, 0, 0⟩⟩).db,
           (sync_loop now scanned ⟨db, posts_by_path db.posts, ⟨0, 0, 0⟩⟩).stats) := rfl
  rw [hcore, hds] at hk
  dsimp only at hk
  rw [sync_tx_eq]
  by_cases hcase : k < (sync_loop now scanned ⟨db, posts_by_path db.posts, ⟨0, 0, 0⟩⟩).stats.added
      + (sync_loop now scanned ⟨db, posts_by_path db.posts, ⟨0, 0, 0⟩⟩).stats.updated
      + (sync_loop now scanned ⟨db, posts_by_path db.posts, ⟨0, 0, 0⟩⟩).stats.deleted
  · rw [tx_loop_fail now k scanned db (posts_by_path db.posts) ⟨0, 0, 0⟩ 0 rfl
        (Nat.zero_le k), if_pos hcase]
  · rw [tx_loop_fail now k scanned db (posts_by_path db.posts) ⟨0, 0, 0⟩ 0 rfl
        (Nat.zero_le k), if_neg hcase]
    dsimp only
    rw [tx_delete_loop_fail k
      (sync_loop now scanned ⟨db, posts_by_path db.posts, ⟨0, 0, 0⟩⟩).work
      (sync_loop now scanned ⟨db, posts_by_path db.posts, ⟨0, 0, 0⟩⟩).db
      (sync_loop now scanned ⟨db, posts_by_path db.posts, ⟨0, 0, 0⟩⟩).work
      (sync_loop now scanned ⟨db, posts_by_path db.posts, ⟨0, 0, 0⟩⟩).stats
      ((sync_loop now scanned ⟨db, posts_by_path db.posts, ⟨0, 0, 0⟩⟩).stats.added
        + (sync_loop now scanned ⟨db, posts_by_path db.posts, ⟨0, 0, 0⟩⟩).stats.updated
        + (sync_loop now scanned ⟨db, posts_by_path db.posts, ⟨0, 0, 0⟩⟩).stats.deleted)
      (Nat.le_of_not_lt hcase)]
    rw [if_pos (by omega)]

/-! ## The directory scanner -/

theorem relative_to_append (base rel : PathParts) :
    relative_to (base ++ rel) base = some rel := by
  rw [relative_to, if_pos (List.take_left base rel)]
  rw [List.drop_left]

theorem get_category_from_path_append (base : PathParts) (first : String)
    (rest : PathParts) :
    get_category_from_path (base ++ first :: rest) base
      = some (if rest = [] then "" else first) := by
  rw [get_category_from_path, relative_to_append]
  by_cases h : rest = []
  · subst h
    rfl
  · rw [if_neg h]
    show (if (first :: rest).length = 1 then some "" else some first) = some first
    rw [if_neg fun hlen => h (by
      rw [List.length_cons] at hlen
      exact List.length_eq_zero.mp (Nat.succ_injective hlen))]

theorem md_glob_ne_nil {parts : PathParts} (h : md_glob_matches parts = true) :
    parts ≠ [] := by
  intro hnil
  rw [hnil] at h
  simp [md_glob_matches] at h

theorem process_file_some (data_dir : PathParts) (f : FsFile)
    (hm : md_glob_matches f.parts = true) (hr : f.readable = true) :
    process_file data_dir f = some (scanned_info data_dir f) := by
  obtain ⟨first, rest, hparts⟩ : ∃ first rest, f.parts = first :: rest := by
    cases hp : f.parts with
    | nil => exact absurd hp (md_glob_ne_nil hm)
    | cons a b => exact ⟨a, b, rfl⟩
  have hassoc : data_dir ++ "posts" :: f.parts = (data_dir ++ ["posts"]) ++ f.parts := by
    simp
  have hcat : get_category_from_path (data_dir ++ "posts" :: f.parts)
      (data_dir ++ ["posts"]) = some (if rest = [] then "" else first) := by
    rw [hassoc, hparts, get_category_from_path_append]
  have hrel : relative_to (data_dir ++ "posts" :: f.parts) data_dir
      = some ("posts" :: f.parts) :=
    relative_to_append data_dir ("posts" :: f.parts)
  simp only [process_file, hr, hcat, hrel, scanned_info]
  rfl

theorem process_file_not_readable (data_dir : PathParts) (f : FsFile)
    (hr : f.readable = false) :
    process_file data_dir f = none := by
  simp only [process_file, hr]
  rfl

theorem scan_eq (data_dir : PathParts) (files : List FsFile) :
    scan_posts_directory data_dir ⟨true, files⟩
      = (files.filter fun f => md_glob_matches f.parts && f.readable).map
          (scanned_info data_dir) := by
  have h0 : scan_posts_directory data_dir ⟨true, files⟩
      = files.filterMap fun f =>
          if md_glob_matches f.parts then process_file data_dir f else none := rfl
  rw [h0]
  clear h0
  induction files with
  | nil => rfl
  | cons f rest ih =>
    rw [List.filterMap_cons, List.filter_cons]
    by_cases hm : md_glob_matches f.parts = true
    · by_cases hr : f.readable = true
      · have hc : (md_glob_matches f.parts && f.readable) = true := by
          rw [hm, hr]; rfl
        rw [if_pos hm, process_file_some data_dir f hm hr, if_pos hc,
          List.map_cons, ih]
      · have hr' : f.readable = false := by
          cases hfr : f.readable
          · rfl
          · exact absurd hfr hr
        have hc : (md_glob_matches f.parts && f.readable) = false := by
          rw [hm, hr']; rfl
        rw [if_pos hm, process_file_not_readable data_dir f hr',
          if_neg (show ¬ (md_glob_matches f.parts && f.readable) = true by
            rw [hc]; exact Bool.false_ne_true)]
        exact ih
    · have hm' : md_glob_matches f.parts = false := by
        cases hfm : md_glob_matches f.parts
        · rfl
        · exact absurd hfm hm
      have hc : (md_glob_matches f.parts && f.readable) = false := by
        rw [hm']; rfl
      rw [if_neg hm,
        if_neg (show ¬ (md_glob_matches f.parts && f.readable) = true by
          rw [hc]; exact Bool.false_ne_true)]
      exact ih

/-! ## Idempotence -/

theorem sync_core_idempotent (now₁ now₂ : Nat) (scanned : List PostInfo)
    (db : DbState) (hdb : DbOk db)
    (hS : (scanned.map PostInfo.file_path).Nodup) :
    (sync_core now₂ scanned (sync_core now₁ scanned db).1).2 = ⟨0, 0, 0⟩ := by
  have hdb₁ := sync_core_db_ok now₁ scanned db hdb hS
  obtain ⟨-, -, hstats⟩ :=
    sync_core_char now₂ scanned (sync_core now₁ scanned db).1 hdb₁ hS
  rw [hstats, SyncStats.mk.injEq]
  refine ⟨?_, ?_, ?_⟩
  · rw [List.countP_eq_zero]
    intro i hi
    have hmem : i.file_path
        ∈ (sync_core now₁ scanned db).1.posts.map Post.file_path :=
      (sync_core_paths_mem now₁ scanned db hdb hS i.file_path).mpr
        (List.mem_map_of_mem PostInfo.file_path hi)
    obtain ⟨p, hp, hpi⟩ := List.mem_map.mp hmem
    have hany : ((sync_core now₁ scanned db).1.posts.any fun p =>
        decide (p.file_path = i.file_path)) = true :=
      List.any_eq_true.mpr ⟨p, hp, decide_eq_true hpi⟩
    simp [hany]
  · rw [List.countP_eq_zero]
    intro i hi hpred
    obtain ⟨p, hp, hdec⟩ := List.any_eq_true.mp hpred
    have hpd := of_decide_eq_true hdec
    exact hpd.2 (sync_core_hash now₁ scanned db hdb hS p hp i hi hpd.1.symm)
  · rw [List.countP_eq_zero]
    intro p hp
    have hmem : p.file_path ∈ scanned.map PostInfo.file_path :=
      (sync_core_paths_mem now₁ scanned db hdb hS p.file_path).mp
        (List.mem_map_of_mem Post.file_path hp)
    obtain ⟨i, hi, hip⟩ := List.mem_map.mp hmem
    have hany : (scanned.any fun i => decide (i.file_path = p.file_path)) = true :=
      List.any_eq_true.mpr ⟨i, hi, decide_eq_true hip⟩
    simp [hany]

/-! ## The claims -/

/-- Claim C1: for every scanned file set and every persisted index, the
reconciliation classifies a matched descriptor as an update exactly when its
hash differs (and as a no-op when equal), an unmatched descriptor as a
create, an unmatched persisted row as a delete, and the returned summary
equals the cardinalities of those three sets exactly. -/
theorem flog_C1_sync_stats_counts (now : Nat) (scanned : List PostInfo)
    (db : DbState) (hdb : DbOk db)
    (hS : (scanned.map PostInfo.file_path).Nodup) :
    (sync_core now scanned db).2
      = ⟨scanned.countP fun i =>
           !(db.posts.any fun p => decide (p.file_path = i.file_path)),
         scanned.countP fun i => db.posts.any fun p =>
           decide (p.file_path = i.file_path ∧ p.file_hash ≠ i.file_hash),
         db.posts.countP fun p =>
           !(scanned.any fun i => decide (i.file_path = p.file_path))⟩ :=
  (sync_core_char now scanned db hdb hS).2.2

theorem flog_C1_sync_stats_counts_witness :
    (sync_core 9
      [⟨"a", "A", "", "posts/a.md", "h1", [], ""⟩,
       ⟨"b", "B", "", "posts/b.md", "h2", [], ""⟩]
      ⟨[⟨1, "a", "A", "", "posts/a.md", "h0", 7, PostStatusEnum.HIDE, 1, 1⟩,
        ⟨2, "c", "C", "", "posts/c.md", "h3", 0, PostStatusEnum.SHOW, 1, 1⟩],
       3⟩).2 = ⟨1, 1, 1⟩ := by
  rw [flog_C1_sync_stats_counts 9 _ _ (by decide) (by decide)]
  decide

/-- Claim C2: after every successful reconciliation run, the persisted index
contains exactly one post row for each file_path present in the current
scan, and no row survives whose file_path is absent from the scan. -/
theorem flog_C2_index_exactly_scanned (now : Nat) (scanned : List PostInfo)
    (db : DbState) (hdb : DbOk db)
    (hS : (scanned.map PostInfo.file_path).Nodup) :
    ((sync_core now scanned db).1.posts.map Post.file_path).Nodup ∧
    ∀ q : String, q ∈ (sync_core now scanned db).1.posts.map Post.file_path
      ↔ q ∈ scanned.map PostInfo.file_path :=
  ⟨sync_core_paths_nodup now scanned db hdb hS,
   fun q => sync_core_paths_mem now scanned db hdb hS q⟩

theorem flog_C2_index_exactly_scanned_witness :
    ((sync_core 9
      [⟨"a", "A", "", "posts/a.md", "h1", [], ""⟩,
       ⟨"b", "B", "", "posts/b.md", "h2", [], ""⟩]
      ⟨[⟨1, "a", "A", "", "posts/a.md", "h0", 7, PostStatusEnum.HIDE, 1, 1⟩,
        ⟨2, "c", "C", "", "posts/c.md", "h3", 0, PostStatusEnum.SHOW, 1, 1⟩],
       3⟩).1.posts.map Post.file_path).Nodup ∧
    ∀ q : String, q ∈ (sync_core 9
      [⟨"a", "A", "", "posts/a.md", "h1", [], ""⟩,
       ⟨"b", "B", "", "posts/b.md", "h2", [], ""⟩]
      ⟨[⟨1, "a", "A", "", "posts/a.md", "h0", 7, PostStatusEnum.HIDE, 1, 1⟩,
        ⟨2, "c", "C", "", "posts/c.md", "h3", 0, PostStatusEnum.SHOW, 1, 1⟩],
       3⟩).1.posts.map Post.file_path
      ↔ q ∈ ([⟨"a", "A", "", "posts/a.md", "h1", [], ""⟩,
              ⟨"b", "B", "", "posts/b.md", "h2", [], ""⟩] :
              List PostInfo).map PostInfo.file_path :=
  flog_C2_index_exactly_scanned 9 _ _ (by decide) (by decide)

/-- Claim C3: running the reconciliation twice in a row with no filesystem
change between the calls makes the second call return
added 0, updated 0, deleted 0. -/
theorem flog_C3_second_run_zero (now₁ now₂ : Nat) (data_dir : PathParts)
    (fs : Filesystem) (db : DbState) (hdb : DbOk db)
    (hS : ((scan_posts_directory data_dir fs).map PostInfo.file_path).Nodup) :
    (sync_posts_to_database now₂ data_dir fs
      (sync_posts_to_database now₁ data_dir fs db).1).2 = ⟨0, 0, 0⟩ :=
  sync_core_idempotent now₁ now₂ (scan_posts_directory data_dir fs) db hdb hS

theorem flog_C3_second_run_zero_witness :
    (sync_posts_to_database 7 ["data"]
      ⟨true, [⟨["a.md"], [], "body", "h1", true⟩]⟩
      (sync_posts_to_database 5 ["data"]
        ⟨true, [⟨["a.md"], [], "body", "h1", true⟩]⟩ ⟨[], 0⟩).1).2 = ⟨0, 0, 0⟩ :=
  flog_C3_second_run_zero 5 7 ["data"]
    ⟨true, [⟨["a.md"], [], "body", "h1", true⟩]⟩ ⟨[], 0⟩ (by decide) (by decide)

/-- Claim C4: all writes of one reconciliation run happen in a single
transaction: with no failure the whole plan commits and the caller gets the
summary; a failure at any write statement of the plan leaves the committed
store in its prior state and the caller receives an error, not a summary. -/
theorem flog_C4_single_transaction (now : Nat) (scanned : List PostInfo)
    (db : DbState) :
    (sync_posts_to_database_tx now none scanned ⟨db, db⟩
        = (⟨(sync_core now scanned db).1, (sync_core now scanned db).1⟩,
           Except.ok (sync_core now scanned db).2)) ∧
    ∀ k : Nat,
      k < (sync_core now scanned db).2.added
          + (sync_core now scanned db).2.updated
          + (sync_core now scanned db).2.deleted →
      sync_posts_to_database_tx now (some k) scanned ⟨db, db⟩
        = (⟨db, db⟩, Except.error ()) :=
  ⟨sync_tx_none_run now scanned db,
   fun k hk => sync_tx_fail_run now scanned db k hk⟩

theorem flog_C4_single_transaction_witness :
    sync_posts_to_database_tx 5 (some 0)
      [⟨"a", "A", "", "posts/a.md", "h1", [], ""⟩] ⟨⟨[], 0⟩, ⟨[], 0⟩⟩
      = (⟨⟨[], 0⟩, ⟨[], 0⟩⟩, Except.error ()) :=
  (flog_C4_single_transaction 5
    [⟨"a", "A", "", "posts/a.md", "h1", [], ""⟩] ⟨[], 0⟩).2 0 (by decide)

/-- Claim C5 counterexample: a file two directories below the content root
gets only the first directory as its category, not the full relative chain
the claim asserts. -/
theorem flog_C5_category_counterexample :
    get_category_from_path ["posts", "a", "b", "c.md"] ["posts"] = some "a" ∧
    get_category_from_path_spec ["posts", "a", "b", "c.md"] ["posts"] = some "a/b" ∧
    get_category_from_path ["posts", "a", "b", "c.md"] ["posts"]
      ≠ get_category_from_path_spec ["posts", "a", "b", "c.md"] ["posts"] := by
  refine ⟨?_, ?_, ?_⟩ <;> decide

/-- Claim C5 (amended): the category of an eligible file is the FIRST path
segment between the content root and the file — deeper directory levels are
ignored — and the empty string when the file sits directly in the root; in
particular posts/tech/golang.md yields "tech" and posts/readme.md yields "". -/
theorem flog_C5_category_first_segment :
    (∀ (base : PathParts) (first : String) (rest : PathParts),
      get_category_from_path (base ++ first :: rest) base
        = some (if rest = [] then "" else first)) ∧
    get_category_from_path ["posts", "tech", "golang.md"] ["posts"] = some "tech" ∧
    get_category_from_path ["posts", "readme.md"] ["posts"] = some "" :=
  ⟨get_category_from_path_append, by decide, by decide⟩

/-- Claim C6: the front-matter document with title X and hidden true parses
to exactly that metadata, with string values, and body "Body text"; a
document that does not begin with the delimiter line parses to empty
metadata with the whole original text as body, not an error. -/
theorem flog_C6_front_matter_round_trip :
    parse_front_matter "---\ntitle: X\nhidden: true\n---\nBody text"
        = ([("title", "X"), ("hidden", "true")], "Body text") ∧
    ∀ doc : String, (str_lines doc).head? ≠ some "---" →
      parse_front_matter doc = ([], doc) := by
  constructor
  · decide
  · intro doc hd
    cases hl : str_lines doc with
    | nil => simp only [parse_front_matter, hl]
    | cons first rest =>
      have hne : first ≠ "---" := fun hc => hd (by rw [hl, hc]; rfl)
      simp only [parse_front_matter, hl]
      rw [if_neg hne]

theorem flog_C6_front_matter_round_trip_witness :
    parse_front_matter "Body only" = ([], "Body only") :=
  flog_C6_front_matter_round_trip.2 "Body only" (by decide)

/-- Claim C7: an update applied by reconciliation mutates only the
content-derived fields; the slug, view count, visibility status and creation
time of a surviving row are never changed by a run. -/
theorem flog_C7_update_frame (now : Nat) (scanned : List PostInfo)
    (db : DbState) (hdb : DbOk db)
    (hS : (scanned.map PostInfo.file_path).Nodup) :
    ∀ r ∈ db.posts, ∀ r' ∈ (sync_core now scanned db).1.posts, r'.id = r.id →
      r'.slug = r.slug ∧ r'.view_count = r.view_count ∧ r'.status = r.status ∧
      r'.created_at = r.created_at := by
  obtain ⟨hposts, -, -⟩ := sync_core_char now scanned db hdb hS
  obtain ⟨hpn, hin, hilt⟩ := hdb
  intro r hr r' hr' hid
  rw [hposts] at hr'
  rcases List.mem_append.mp hr' with hm | hm
  · obtain ⟨p, hpf, rfl⟩ := List.mem_map.mp hm
    have hp := (List.mem_filter.mp hpf).1
    have hpr : p = r := by
      refine List.inj_on_of_nodup_map hin hp hr ?_
      show p.id = r.id
      rw [← upd_fun_id scanned (db.posts.map fun p => (p.file_path, p)) p, hid]
    subst hpr
    exact ⟨upd_fun_slug _ _ _, upd_fun_view_count _ _ _, upd_fun_status _ _ _,
      upd_fun_created_at _ _ _⟩
  · have hge := (mk_creates_id_bound hm).1
    have hlt := hilt r hr
    rw [hid] at hge
    omega

theorem flog_C7_update_frame_witness :
    (⟨1, "a", "A2", "cat", "posts/a.md", "h1", 7, PostStatusEnum.HIDE, 3, 4⟩ :
        Post).slug
      = (⟨1, "a", "A", "", "posts/a.md", "h0", 7, PostStatusEnum.HIDE, 3, 4⟩ :
        Post).slug ∧
    (⟨1, "a", "A2", "cat", "posts/a.md", "h1", 7, PostStatusEnum.HIDE, 3, 4⟩ :
        Post).view_count
      = (⟨1, "a", "A", "", "posts/a.md", "h0", 7, PostStatusEnum.HIDE, 3, 4⟩ :
        Post).view_count ∧
    (⟨1, "a", "A2", "cat", "posts/a.md", "h1", 7, PostStatusEnum.HIDE, 3, 4⟩ :
        Post).status
      = (⟨1, "a", "A", "", "posts/a.md", "h0", 7, PostStatusEnum.HIDE, 3, 4⟩ :
        Post).status ∧
    (⟨1, "a", "A2", "cat", "posts/a.md", "h1", 7, PostStatusEnum.HIDE, 3, 4⟩ :
        Post).created_at
      = (⟨1, "a", "A", "", "posts/a.md", "h0", 7, PostStatusEnum.HIDE, 3, 4⟩ :
        Post).created_at :=
  flog_C7_update_frame 9 [⟨"a", "A2", "cat", "posts/a.md", "h1", [], ""⟩]
    ⟨[⟨1, "a", "A", "", "posts/a.md", "h0", 7, PostStatusEnum.HIDE, 3, 4⟩], 2⟩
    (by decide) (by decide)
    ⟨1, "a", "A", "", "posts/a.md", "h0", 7, PostStatusEnum.HIDE, 3, 4⟩ (by decide)
    ⟨1, "a", "A2", "cat", "posts/a.md", "h1", 7, PostStatusEnum.HIDE, 3, 4⟩
    (by decide) (by decide)

/-- Claim C8 counterexample: the scanner's identity key for
posts/tech/golang.md is "posts/tech/golang.md" — the path relative to the
data directory — not the path "tech/golang.md" relative to the content
root that the claim asserts. -/
theorem flog_C8_identity_key_counterexample :
    (scan_posts_directory ["data"]
        ⟨true, [⟨["tech", "golang.md"], [], "", "h", true⟩]⟩).map
          PostInfo.file_path
      = ["posts/tech/golang.md"] ∧
    file_path_spec_of ⟨["tech", "golang.md"], [], "", "h", true⟩
      = "tech/golang.md" ∧
    ("posts/tech/golang.md" : String) ≠ "tech/golang.md" := by
  refine ⟨?_, ?_, ?_⟩ <;> decide

/-- Claim C8 (amended): the identity key of every scanned descriptor is the
POSIX-style path of the file relative to the DATA directory — the parent of
the content root — so it always carries the leading "posts" segment. -/
theorem flog_C8_identity_key_data_dir (data_dir : PathParts) (fs : Filesystem) :
    ∀ info ∈ scan_posts_directory data_dir fs,
      ∃ f ∈ fs.files, info.file_path = as_posix ("posts" :: f.parts) := by
  intro info hinfo
  obtain ⟨e, files⟩ := fs
  cases e with
  | false => exact absurd hinfo (List.not_mem_nil info)
  | true =>
    rw [scan_eq] at hinfo
    obtain ⟨f, hf, rfl⟩ := List.mem_map.mp hinfo
    exact ⟨f, (List.mem_filter.mp hf).1, rfl⟩

theorem flog_C8_identity_key_data_dir_witness :
    ∃ f ∈ (⟨true, [⟨["tech", "golang.md"], [], "", "h", true⟩]⟩ :
        Filesystem).files,
      (⟨"golang", "golang", "tech", "posts/tech/golang.md", "h", [], ""⟩ :
        PostInfo).file_path = as_posix ("posts" :: f.parts) :=
  flog_C8_identity_key_data_dir ["data"]
    ⟨true, [⟨["tech", "golang.md"], [], "", "h", true⟩]⟩
    ⟨"golang", "golang", "tech", "posts/tech/golang.md", "h", [], ""⟩ (by decide)

/-- Claim C9: a per-file processing failure only skips that file — the scan
returns a descriptor for every other readable eligible file and never
aborts — and a missing content root yields an empty descriptor list rather
than an error. -/
theorem flog_C9_scan_skips_bad_files (data_dir : PathParts)
    (files : List FsFile) :
    scan_posts_directory data_dir ⟨false, files⟩ = [] ∧
    scan_posts_directory data_dir ⟨true, files⟩
      = (files.filter fun f => md_glob_matches f.parts && f.readable).map
          (scanned_info data_dir) :=
  ⟨rfl, scan_eq data_dir files⟩

/-- Claim C10 counterexample: a file whose front matter says hidden true is
still created with the default visibility SHOW — the scanner derives no
hidden flag and the reconciler never reads the metadata when creating. -/
theorem flog_C10_hidden_counterexample :
    (sync_posts_to_database 0 ["data"]
        ⟨true, [⟨["a.md"], [("hidden", "true")], "body", "h", true⟩]⟩
        ⟨[], 0⟩).1.posts.map Post.status = [PostStatusEnum.SHOW] ∧
    PostStatusEnum.SHOW ≠ PostStatusEnum.HIDE := by
  refine ⟨?_, ?_⟩ <;> decide

/-- Claim C10 (amended): the scanner carries the raw metadata through but
derives no hidden flag from it, and every row first created by a
reconciliation run receives the column-default visibility SHOW regardless of
the hidden front-matter key. -/
theorem flog_C10_created_rows_default_show (now : Nat) (data_dir : PathParts)
    (fs : Filesystem) (db : DbState) (hdb : DbOk db)
    (hS : ((scan_posts_directory data_dir fs).map PostInfo.file_path).Nodup) :
    ∀ r' ∈ (sync_posts_to_database now data_dir fs db).1.posts,
      db.nextId ≤ r'.id → r'.status = PostStatusEnum.SHOW := by
  obtain ⟨hposts, -, -⟩ :=
    sync_core_char now (scan_posts_directory data_dir fs) db hdb hS
  obtain ⟨-, -, hilt⟩ := hdb
  intro r' hr' hge
  have hr'' : r' ∈ (sync_core now (scan_posts_directory data_dir fs) db).1.posts :=
    hr'
  rw [hposts] at hr''
  rcases List.mem_append.mp hr'' with hm | hm
  · obtain ⟨p, hpf, rfl⟩ := List.mem_map.mp hm
    have hlt := hilt p (List.mem_filter.mp hpf).1
    rw [upd_fun_id] at hge
    omega
  · obtain ⟨j, -, -, -, hst, -⟩ := mk_creates_mem_spec hm
    exact hst

theorem flog_C10_created_rows_default_show_witness :
    (⟨0, "a", "a", "", "posts/a.md", "h", 0, PostStatusEnum.SHOW, 0, 0⟩ :
        Post).status = PostStatusEnum.SHOW :=
  flog_C10_created_rows_default_show 0 ["data"]
    ⟨true, [⟨["a.md"], [("hidden", "true")], "body", "h", true⟩]⟩ ⟨[], 0⟩
    (by decide) (by decide)
    ⟨0, "a", "a", "", "posts/a.md", "h", 0, PostStatusEnum.SHOW, 0, 0⟩
    (by decide) (by decide)

end Flog
